import Mathlib

/-!
Verification development for the MP4 in-place concatenation tool
(src/Concatenate-mp4-videos.py).

The development has three layers, each a shallow embedding of a part of the
source:

* a byte-level model of the atom-tree parser (`parse_container` /
  `AtomReader`) and serializer (`write_atom` / `AtomWriter` / the
  `unparse_*` methods), with files as `List Nat` byte lists;
* a model of the chunk derivation (`Chunk.__init__`, `MP4.chunk_info`,
  `Chunk._compute_samples`) and of `MP4.chunks`;
* a model of the in-place update engine
  (`MP4.update_in_place_using_chunks`), with the destination file as an
  explicit byte-list state threaded through every write.

Python `int`s are unbounded, so machine integers are plain `Nat`
(big-endian packing `struct.pack` is modeled by `u32be`/`u16be`, which
take the value modulo 2^32 / 2^16 per byte position; all values produced
by parsing are below those bounds).  Python float arithmetic appears only
in the duration computation of the update engine and is modeled by exact
rational rounding; no claim depends on the duration fields.
-/

namespace MP4Concat


/-- `slice f pos n`: the `n` bytes of file `f` starting at `pos`
(`fp.seek(pos); fp.read(n)` — like Python's `read`, it returns fewer bytes
when the file ends early). -/
def slice (f : List Nat) (pos n : Nat) : List Nat :=
  (f.drop pos).take n

/-- All entries of a byte list are actual bytes. -/
def bytesOk (f : List Nat) : Prop :=
  ∀ b ∈ f, b < 256

/-- Big-endian 32-bit read of a 4-byte list (`struct.unpack` with a `!I`
format). -/
def be32l (l : List Nat) : Nat :=
  l.foldl (fun a b => a * 256 + b) 0

/-- Big-endian 16-bit read of a 2-byte list (`struct.unpack` with a `!H`
format). -/
def be16l (l : List Nat) : Nat :=
  l.foldl (fun a b => a * 256 + b) 0

/-- Big-endian 32-bit write (`struct.pack` with a `!I` format). -/
def u32be (n : Nat) : List Nat :=
  [n / 16777216 % 256, n / 65536 % 256, n / 256 % 256, n % 256]

/-- Big-endian 16-bit write (`struct.pack` with a `!H` format). -/
def u16be (n : Nat) : List Nat :=
  [n / 256 % 256, n % 256]

/-- A positional parser over a byte-list file: given the file and a start
position it returns the parsed value and the position one past the last
byte consumed (the `AtomReader` reads of the source, with the stream
position made explicit). -/
def P (α : Type) : Type :=
  List Nat → Nat → Option (α × Nat)

/-- `ar.read(n)` — Python 2 `file.read`: the next `n` bytes, or fewer
when the read reaches the end of the file.  A short read is silent, and
the stream position advances only by what was actually read. -/
def pBytes (n : Nat) : P (List Nat) := fun f p =>
  some (slice f p n, p + (slice f p n).length)

/-- `ar.read(n)` where the count comes from file data and may be
negative (`len - 18` in `parse_stsd`, `len - 12` in `parse_dref`):
Python 2's `file.read` treats a negative count as "read to end of
file". -/
def pReadSigned (n : Int) : P (List Nat) := fun f p =>
  if n < 0 then pBytes (f.length - p) f p else pBytes n.toNat f p

/-- `ar.read32()`: `struct.unpack` on a 4-byte read; a short read near
the end of the file gives `struct.unpack` fewer than 4 bytes and it
raises, so that is a parse failure. -/
def pU32 : P Nat := fun f p =>
  if p + 4 ≤ f.length then some (be32l (slice f p 4), p + 4) else none

/-- `ar.read16()`: `struct.unpack` on a 2-byte read. -/
def pU16 : P Nat := fun f p =>
  if p + 2 ≤ f.length then some (be16l (slice f p 2), p + 2) else none

/-- Sequencing of two reads, the second possibly depending on the first
value (straight-line statement sequences of the source parsers). -/
def pDep (q : P α) (r : α → P β) : P (α × β) := fun f p =>
  (q f p).bind fun ap => (r ap.1 f ap.2).map fun bp => ((ap.1, bp.1), bp.2)

/-- Read `n` successive values with the same sub-parser (the
`for i in range(0, num)` loops of the source parsers). -/
def pCount (q : P α) : Nat → P (List α)
  | 0 => fun _ p => some ([], p)
  | n + 1 => fun f p =>
    (q f p).bind fun ap =>
      (pCount q n f ap.2).map fun lp => (ap.1 :: lp.1, lp.2)

/-- A read followed by a check on the value (the `assert`s and
`raise`-on-bad-value guards inside the source parsers). -/
def pGuard (q : P α) (g : α → Bool) : P α := fun f p =>
  (q f p).bind fun ap => if g ap.1 then some ap else none

/-- `Emits q w`: whenever parser `q` succeeds on a real byte file, the
serializer `w` reproduces exactly the bytes `q` consumed.  This is the
per-field statement behind the parse → `unparse_*` round-trip. -/
def Emits (q : P α) (w : α → List Nat) : Prop :=
  ∀ f p a p', bytesOk f → q f p = some (a, p') →
    w a = slice f p (p' - p) ∧ p ≤ p' ∧ (p ≤ f.length → p' ≤ f.length)

/-! ### Atom type codes (4 ASCII bytes each) -/

def mvhdT : List Nat := [109, 118, 104, 100]

def tkhdT : List Nat := [116, 107, 104, 100]

def elstT : List Nat := [101, 108, 115, 116]

def mdhdT : List Nat := [109, 100, 104, 100]

def stcoT : List Nat := [115, 116, 99, 111]

def stszT : List Nat := [115, 116, 115, 122]

def stscT : List Nat := [115, 116, 115, 99]

def stssT : List Nat := [115, 116, 115, 115]

def sttsT : List Nat := [115, 116, 116, 115]

def stsdT : List Nat := [115, 116, 115, 100]

def drefT : List Nat := [100, 114, 101, 102]

def metaT : List Nat := [109, 101, 116, 97]

def moovT : List Nat := [109, 111, 111, 118]

def trakT : List Nat := [116, 114, 97, 107]

def mdiaT : List Nat := [109, 100, 105, 97]

def minfT : List Nat := [109, 105, 110, 102]

def edtsT : List Nat := [101, 100, 116, 115]

def dinfT : List Nat := [100, 105, 110, 102]

def stblT : List Nat := [115, 116, 98, 108]

def udtaT : List Nat := [117, 100, 116, 97]

def ftypT : List Nat := [102, 116, 121, 112]

def hdlrT : List Nat := [104, 100, 108, 114]

def mdatT : List Nat := [109, 100, 97, 116]

def vmhdT : List Nat := [118, 109, 104, 100]

def ilstT : List Nat := [105, 108, 115, 116]

def freeT : List Nat := [102, 114, 101, 101]

/-- The container atom types of `parse_container` (line 503 of the
source). -/
def containerTypes : List (List Nat) :=
  [metaT, moovT, trakT, mdiaT, minfT, edtsT, dinfT, stblT, udtaT]

/-- The atom types that are recorded and skipped (line 512 of the source).
`mdhd` appears in this source list too, but the typed-parser dispatch is
checked first, so for `mdhd` this entry is unreachable — as it is for
`stsd`, `stts`, `stss`, `stsc`, `stsz` and `stco`, and (because
`parse_dref` exists) for `dref`. -/
def skipTypes : List (List Nat) :=
  [ftypT, mdhdT, hdlrT, mdatT, vmhdT, drefT, stsdT, sttsT, stssT, stscT,
   stszT, stcoT, ilstT, freeT]

/-- One entry of `stsd.sample_descriptions` as parsed by `parse_stsd`. -/
structure SampleDescription where
  format : List Nat
  reserved : List Nat
  reference_index : Nat
  unparsed : List Nat
deriving DecidableEq, Repr

/-- One entry of `dref.data_references` as parsed by `parse_dref`. -/
structure DataReference where
  rtype : List Nat
  version : List Nat
  flags : List Nat
  data : List Nat
deriving DecidableEq, Repr

/-- The parse result of one atom: the typed leaves that have a
`parse_<type>` method, containers, and opaque (skipped) leaves which
record only their position and size.  `dref` is special: `parse_dref`
exists (so it is parsed as a typed leaf, fields and all) but
`unparse_dref` does not, so serialization falls back to the byte-copy
branch; the variant therefore keeps the position and size as well. -/
inductive AtomVal : Type where
  | mvhd (version flags : List Nat)
      (creation_time modification_time time_scale duration : Nat)
      (unparsed : List Nat)
  | tkhd (version flags : List Nat)
      (creation_time modification_time track_id : Nat)
      (reserved1 : List Nat) (duration : Nat) (unparsed : List Nat)
      (track_width track_height : Nat)
  | elst (version flags : List Nat) (edits : List (Nat × Nat × Nat))
  | mdhd (version flags : List Nat)
      (creation_time modification_time time_scale duration language quality : Nat)
  | stco (version flags : List Nat) (chunk_offsets : List Nat)
  | stsz (version flags : List Nat) (sample_sizes : List Nat)
  | stsc (version flags : List Nat) (sample_to_chunk_map : List (Nat × Nat × Nat))
  | stss (version flags : List Nat) (key_frame_samples : List Nat)
  | stts (version flags : List Nat) (time_to_sample_map : List (Nat × Nat))
  | stsd (version flags : List Nat) (sample_descriptions : List SampleDescription)
  | dref (version flags : List Nat) (data_references : List DataReference)
      (pos size : Nat)
  | container (atomtype : List Nat) (container_header : List Nat)
      (children : List (List Nat × AtomVal)) (pos size : Nat)
  | rawLeaf (atomtype : List Nat) (pos size : Nat)

/-- The `atomtype` entry of the parsed dictionary. -/
def AtomVal.typeCode : AtomVal → List Nat
  | .mvhd .. => mvhdT
  | .tkhd .. => tkhdT
  | .elst .. => elstT
  | .mdhd .. => mdhdT
  | .stco .. => stcoT
  | .stsz .. => stszT
  | .stsc .. => stscT
  | .stss .. => stssT
  | .stts .. => sttsT
  | .stsd .. => stsdT
  | .dref .. => drefT
  | .container t _ _ _ _ => t
  | .rawLeaf t _ _ => t

/-! ### Typed-leaf parsers

Each `<type>_core` parser starts right after the 8-byte atom header and
transcribes the reads of the corresponding `parse_<type>` method; the
`parse_<type>_at` wrapper adds the `ar.done()` check that exactly
`atomsize` bytes were consumed. -/

/-- `read_version_and_flags` (1 version byte, 3 flag bytes). -/
def pVF : P (List Nat × List Nat) :=
  pDep (pBytes 1) fun _ => pBytes 3

/-- `parse_mvhd` body: creation/modification times, time scale, duration,
and a fixed `4 + 2 + 10 + 36 + 4*7 = 80`-byte unparsed tail. -/
def mvhd_core : P ((List Nat × List Nat) × Nat × Nat × Nat × Nat × List Nat) :=
  pDep pVF fun _ => pDep pU32 fun _ => pDep pU32 fun _ =>
    pDep pU32 fun _ => pDep pU32 fun _ => pBytes 80

def parse_mvhd_at (f : List Nat) (pos size : Nat) : Option AtomVal :=
  (mvhd_core f (pos + 8)).bind fun tp =>
    if tp.2 = pos + size then
      some (.mvhd tp.1.1.1 tp.1.1.2 tp.1.2.1 tp.1.2.2.1 tp.1.2.2.2.1
        tp.1.2.2.2.2.1 tp.1.2.2.2.2.2)
    else none

/-- `parse_tkhd` body: times, track id, 4 reserved bytes, duration, a
fixed `8 + 2*4 + 36 = 52`-byte unparsed middle, then width and height. -/
def tkhd_core :
    P ((List Nat × List Nat) × Nat × Nat × Nat × List Nat × Nat × List Nat × Nat × Nat) :=
  pDep pVF fun _ => pDep pU32 fun _ => pDep pU32 fun _ => pDep pU32 fun _ =>
    pDep (pBytes 4) fun _ => pDep pU32 fun _ => pDep (pBytes 52) fun _ =>
      pDep pU32 fun _ => pU32

def parse_tkhd_at (f : List Nat) (pos size : Nat) : Option AtomVal :=
  (tkhd_core f (pos + 8)).bind fun tp =>
    if tp.2 = pos + size then
      some (.tkhd tp.1.1.1 tp.1.1.2 tp.1.2.1 tp.1.2.2.1 tp.1.2.2.2.1
        tp.1.2.2.2.2.1 tp.1.2.2.2.2.2.1 tp.1.2.2.2.2.2.2.1
        tp.1.2.2.2.2.2.2.2.1 tp.1.2.2.2.2.2.2.2.2)
    else none

/-- `parse_elst` body: an entry count followed by that many
(duration, start_time, rate) triples. -/
def elst_core : P ((List Nat × List Nat) × Nat × List (Nat × Nat × Nat)) :=
  pDep pVF fun _ => pDep pU32 fun count =>
    pCount (pDep pU32 fun _ => pDep pU32 fun _ => pU32) count

def parse_elst_at (f : List Nat) (pos size : Nat) : Option AtomVal :=
  (elst_core f (pos + 8)).bind fun tp =>
    if tp.2 = pos + size then
      some (.elst tp.1.1.1 tp.1.1.2 tp.1.2.2)
    else none

/-- `parse_mdhd` body. -/
def mdhd_core : P ((List Nat × List Nat) × Nat × Nat × Nat × Nat × Nat × Nat) :=
  pDep pVF fun _ => pDep pU32 fun _ => pDep pU32 fun _ => pDep pU32 fun _ =>
    pDep pU32 fun _ => pDep pU16 fun _ => pU16

def parse_mdhd_at (f : List Nat) (pos size : Nat) : Option AtomVal :=
  (mdhd_core f (pos + 8)).bind fun tp =>
    if tp.2 = pos + size then
      some (.mdhd tp.1.1.1 tp.1.1.2 tp.1.2.1 tp.1.2.2.1 tp.1.2.2.2.1
        tp.1.2.2.2.2.1 tp.1.2.2.2.2.2.1 tp.1.2.2.2.2.2.2)
    else none

/-- `parse_stco` body: a count, then that many 32-bit chunk offsets. -/
def stco_core : P ((List Nat × List Nat) × Nat × List Nat) :=
  pDep pVF fun _ => pDep pU32 fun num => pCount pU32 num

def parse_stco_at (f : List Nat) (pos size : Nat) : Option AtomVal :=
  (stco_core f (pos + 8)).bind fun tp =>
    if tp.2 = pos + size then
      some (.stco tp.1.1.1 tp.1.1.2 tp.1.2.2)
    else none

/-- `parse_stsz` body: a fixed sample size that must be 0 (anything else
raises `sample_size of != 0 is unimplemented`), then the per-sample size
table. -/
def stsz_core : P ((List Nat × List Nat) × Nat × Nat × List Nat) :=
  pDep pVF fun _ => pDep (pGuard pU32 (fun x => x == 0)) fun _ =>
    pDep pU32 fun num => pCount pU32 num

def parse_stsz_at (f : List Nat) (pos size : Nat) : Option AtomVal :=
  (stsz_core f (pos + 8)).bind fun tp =>
    if tp.2 = pos + size then
      some (.stsz tp.1.1.1 tp.1.1.2 tp.1.2.2.2)
    else none

/-- `parse_stsc` body: a count, then that many
(first_chunk, samples_per_chunk, sample_description_id) triples. -/
def stsc_core : P ((List Nat × List Nat) × Nat × List (Nat × Nat × Nat)) :=
  pDep pVF fun _ => pDep pU32 fun num =>
    pCount (pDep pU32 fun _ => pDep pU32 fun _ => pU32) num

def parse_stsc_at (f : List Nat) (pos size : Nat) : Option AtomVal :=
  (stsc_core f (pos + 8)).bind fun tp =>
    if tp.2 = pos + size then
      some (.stsc tp.1.1.1 tp.1.1.2 tp.1.2.2)
    else none

/-- `parse_stss` body: a count, then that many 1-based keyframe sample
numbers. -/
def stss_core : P ((List Nat × List Nat) × Nat × List Nat) :=
  pDep pVF fun _ => pDep pU32 fun num => pCount pU32 num

def parse_stss_at (f : List Nat) (pos size : Nat) : Option AtomVal :=
  (stss_core f (pos + 8)).bind fun tp =>
    if tp.2 = pos + size then
      some (.stss tp.1.1.1 tp.1.1.2 tp.1.2.2)
    else none

/-- `parse_stts` body: a count, then that many
(sample_count, sample_duration) pairs. -/
def stts_core : P ((List Nat × List Nat) × Nat × List (Nat × Nat)) :=
  pDep pVF fun _ => pDep pU32 fun num =>
    pCount (pDep pU32 fun _ => pU32) num

def parse_stts_at (f : List Nat) (pos size : Nat) : Option AtomVal :=
  (stts_core f (pos + 8)).bind fun tp =>
    if tp.2 = pos + size then
      some (.stts tp.1.1.1 tp.1.1.2 tp.1.2.2)
    else none

/-- One sample description of `parse_stsd`: a declared length, a 6-byte
format, 6 reserved bytes, a 16-bit reference index that must be 0
(`assert(description['reference_index'] == 0)`), and a
`read(len - 4 - 6 - 6 - 2)` unparsed tail — for a declared length below
18 that count is negative, and the read runs to end of file.  Alongside
the description the parser reports whether `unparse_stsd` would re-emit
the declared length for it (it writes `desc_len = 18 + len(unparsed)`):
a short or negative tail read makes this flag `false`, and the byte
round-trip fails on such a description although the parse itself
succeeds. -/
def pDesc : P (SampleDescription × Bool) := fun f p =>
  (pU32 f p).bind fun lp =>
    (pBytes 6 f lp.2).bind fun fm =>
      (pBytes 6 f fm.2).bind fun rs =>
        (pU16 f rs.2).bind fun ri =>
          if ri.1 = 0 then
            (pReadSigned ((lp.1 : Int) - 18) f ri.2).map fun up =>
              ((⟨fm.1, rs.1, ri.1, up.1⟩, decide (18 + up.1.length = lp.1)),
                up.2)
          else none

/-- `parse_stsd` body: a count, then that many sample descriptions, each
carrying its length-exactness flag. -/
def stsd_core :
    P ((List Nat × List Nat) × Nat × List (SampleDescription × Bool)) :=
  pDep pVF fun _ => pDep pU32 fun num => pCount pDesc num

/-- `stsd_core` restricted to length-exact descriptions — the successful
parses on which the stsd byte round-trip can hold. -/
def stsd_core_ok :
    P ((List Nat × List Nat) × Nat × List (SampleDescription × Bool)) :=
  pDep pVF fun _ => pDep pU32 fun num =>
    pCount (pGuard pDesc fun db => db.2) num

/-- `parse_stsd` plus the `ar.done()` check; the second component is the
conjunction of the per-description length-exactness flags. -/
def parse_stsd_at (f : List Nat) (pos size : Nat) :
    Option (AtomVal × Bool) :=
  (stsd_core f (pos + 8)).bind fun tp =>
    if tp.2 = pos + size then
      some (.stsd tp.1.1.1 tp.1.1.2 (tp.1.2.2.map Prod.fst),
        tp.1.2.2.all fun db => db.2)
    else none

/-- One data reference of `parse_dref`: declared length, 4-byte type,
1 version byte, 3 flag bytes, and a `read(len - 4 - 4 - 1 - 3)` data
tail — negative for a declared length below 12, reading to end of
file. -/
def pRef : P DataReference := fun f p =>
  (pU32 f p).bind fun lp =>
    (pBytes 4 f lp.2).bind fun ty =>
      (pBytes 1 f ty.2).bind fun v =>
        (pBytes 3 f v.2).bind fun fl =>
          (pReadSigned ((lp.1 : Int) - 12) f fl.2).map fun dt =>
            (⟨ty.1, v.1, fl.1, dt.1⟩, dt.2)

/-- `parse_dref` body: a count that must be 1
(`assert(num == 1)  # for now, can only cope with 1 data reference`),
then that many data references. -/
def dref_core : P ((List Nat × List Nat) × Nat × List DataReference) :=
  pDep pVF fun _ => pDep (pGuard pU32 (fun x => x == 1)) fun num =>
    pCount pRef num

def parse_dref_at (f : List Nat) (pos size : Nat) : Option AtomVal :=
  (dref_core f (pos + 8)).bind fun tp =>
    if tp.2 = pos + size then
      some (.dref tp.1.1.1 tp.1.1.2 tp.1.2.2 pos size)
    else none

/-! ### Serialization (`AtomWriter` and the `unparse_*` methods) -/

/-- `AtomWriter` plus `aw.atom()`: the emitted data is the 4 type bytes
followed by the body, prefixed with the 32-bit total length
`4 + len(data)`. -/
def atomBytes (t body : List Nat) : List Nat :=
  u32be (4 + (t ++ body).length) ++ t ++ body

def unparse_mvhd (version flags : List Nat) (c m ts d : Nat)
    (unp : List Nat) : List Nat :=
  atomBytes mvhdT
    (version ++ flags ++ u32be c ++ u32be m ++ u32be ts ++ u32be d ++ unp)

def unparse_tkhd (version flags : List Nat) (c m tid : Nat)
    (res : List Nat) (dur : Nat) (unp : List Nat) (w h : Nat) : List Nat :=
  atomBytes tkhdT
    (version ++ flags ++ u32be c ++ u32be m ++ u32be tid ++ res ++
     u32be dur ++ unp ++ u32be w ++ u32be h)

def unparse_elst (version flags : List Nat)
    (edits : List (Nat × Nat × Nat)) : List Nat :=
  atomBytes elstT
    (version ++ flags ++ u32be edits.length ++
     (edits.map fun e => u32be e.1 ++ (u32be e.2.1 ++ u32be e.2.2)).flatten)

def unparse_mdhd (version flags : List Nat)
    (c m ts d lang q : Nat) : List Nat :=
  atomBytes mdhdT
    (version ++ flags ++ u32be c ++ u32be m ++ u32be ts ++ u32be d ++
     u16be lang ++ u16be q)

def unparse_stco (version flags : List Nat)
    (chunk_offsets : List Nat) : List Nat :=
  atomBytes stcoT
    (version ++ flags ++ u32be chunk_offsets.length ++
     (chunk_offsets.map u32be).flatten)

def unparse_stsz (version flags : List Nat)
    (sample_sizes : List Nat) : List Nat :=
  atomBytes stszT
    (version ++ flags ++ u32be 0 ++ u32be sample_sizes.length ++
     (sample_sizes.map u32be).flatten)

def unparse_stsc (version flags : List Nat)
    (sample_to_chunk_map : List (Nat × Nat × Nat)) : List Nat :=
  atomBytes stscT
    (version ++ flags ++ u32be sample_to_chunk_map.length ++
     (sample_to_chunk_map.map fun e =>
        u32be e.1 ++ (u32be e.2.1 ++ u32be e.2.2)).flatten)

def unparse_stss (version flags : List Nat)
    (key_frame_samples : List Nat) : List Nat :=
  atomBytes stssT
    (version ++ flags ++ u32be key_frame_samples.length ++
     (key_frame_samples.map u32be).flatten)

def unparse_stts (version flags : List Nat)
    (time_to_sample_map : List (Nat × Nat)) : List Nat :=
  atomBytes sttsT
    (version ++ flags ++ u32be time_to_sample_map.length ++
     (time_to_sample_map.map fun e => u32be e.1 ++ u32be e.2).flatten)

/-- One written sample description: the per-description length
`4 + 6 + 6 + 2 + len(unparsed)` recomputed from the body, then the
fields. -/
def wrDesc (d : SampleDescription) : List Nat :=
  u32be (4 + 6 + 6 + 2 + d.unparsed.length) ++
    (d.format ++ (d.reserved ++ (u16be d.reference_index ++ d.unparsed)))

def unparse_stsd (version flags : List Nat)
    (sample_descriptions : List SampleDescription) : List Nat :=
  atomBytes stsdT
    (version ++ flags ++ u32be sample_descriptions.length ++
     (sample_descriptions.map wrDesc).flatten)

mutual

/-- `write_atom`: typed leaves go through their `unparse_*` method;
containers emit type, container header and children and back-patch the
size; everything else (opaque leaves, and `dref`, which has no
`unparse_dref`) is copied byte-for-byte from its recorded range of the
source file.  The source's closing `assert read32(ret[0:4]) == len(ret)`
is not modeled; it holds whenever the copied range lies inside the file. -/
def writeAtom (f : List Nat) : AtomVal → List Nat
  | .mvhd v fl c m ts d unp => unparse_mvhd v fl c m ts d unp
  | .tkhd v fl c m tid res dur unp w h =>
      unparse_tkhd v fl c m tid res dur unp w h
  | .elst v fl edits => unparse_elst v fl edits
  | .mdhd v fl c m ts d lang q => unparse_mdhd v fl c m ts d lang q
  | .stco v fl offs => unparse_stco v fl offs
  | .stsz v fl sizes => unparse_stsz v fl sizes
  | .stsc v fl entries => unparse_stsc v fl entries
  | .stss v fl ks => unparse_stss v fl ks
  | .stts v fl entries => unparse_stts v fl entries
  | .stsd v fl descs => unparse_stsd v fl descs
  | .dref _ _ _ pos size => slice f pos size
  | .container t hdr kids _ _ =>
      let body := t ++ hdr ++ writeKids f kids
      u32be (body.length + 4) ++ body
  | .rawLeaf _ pos size => slice f pos size

/-- The children loop of `write_atom`'s container branch: the child atoms
in dictionary order (the keys of length 4 are exactly the children). -/
def writeKids (f : List Nat) : List (List Nat × AtomVal) → List Nat
  | [] => []
  | kv :: rest => writeAtom f kv.2 ++ writeKids f rest

end

/-! ### The container walk (`parse_container`) -/

/-- `ret[ar.atomtype] = val` on an `OrderedDict`: if the key is present
its value is replaced in place (keeping the original position), otherwise
the pair is appended. -/
def odInsert (acc : List (List Nat × AtomVal)) (k : List Nat)
    (v : AtomVal) : List (List Nat × AtomVal) :=
  if acc.any (fun p => p.1 = k) then
    acc.map fun p => if p.1 = k then (k, v) else p
  else acc ++ [(k, v)]

/-- Folding the parsed (type, value) sequence into the `OrderedDict` that
`parse_container` returns. -/
def collapseOD (seq : List (List Nat × AtomVal)) : List (List Nat × AtomVal) :=
  seq.foldl (fun acc kv => odInsert acc kv.1 kv.2) []

/-- Parse one atom starting at `pos`: read the 32-bit size and the 4
type bytes, then dispatch exactly as `parse_container` does — a
registered `parse_<type>` method first, then the container types, then
the skip list; anything else is the `Unknown atom type` failure.  Returns
the value, the declared atom size, and a flag that is `true` iff no
container inside this atom had two children of the same type (when the
flag is `false` the returned `OrderedDict` has silently dropped a child)
AND every stsd sample description inside it re-emits its declared length
(when that part is `false`, `unparse_stsd` rewrites a description's
length field).  The recursive walk over a container's payload is
abstracted as the `children` argument, so that the whole parser is one
structural recursion on fuel (`parseChildrenSeq` below). -/
def parseAtomWith
    (children : List Nat → Nat → Nat →
      Option (List (List Nat × AtomVal) × Nat × Bool))
    (f : List Nat) (pos : Nat) : Option (AtomVal × Nat × Bool) :=
  (pU32 f pos).bind fun sz =>
    (pBytes 4 f (pos + 4)).bind fun ty =>
      let size := sz.1
      let t := ty.1
      if t = mvhdT then
        (parse_mvhd_at f pos size).map fun v => (v, size, true)
      else if t = tkhdT then
        (parse_tkhd_at f pos size).map fun v => (v, size, true)
      else if t = elstT then
        (parse_elst_at f pos size).map fun v => (v, size, true)
      else if t = mdhdT then
        (parse_mdhd_at f pos size).map fun v => (v, size, true)
      else if t = stcoT then
        (parse_stco_at f pos size).map fun v => (v, size, true)
      else if t = stszT then
        (parse_stsz_at f pos size).map fun v => (v, size, true)
      else if t = stscT then
        (parse_stsc_at f pos size).map fun v => (v, size, true)
      else if t = stssT then
        (parse_stss_at f pos size).map fun v => (v, size, true)
      else if t = sttsT then
        (parse_stts_at f pos size).map fun v => (v, size, true)
      else if t = stsdT then
        (parse_stsd_at f pos size).map fun vb => (vb.1, size, vb.2)
      else if t = drefT then
        (parse_dref_at f pos size).map fun v => (v, size, true)
      else if t ∈ containerTypes then
        -- the container 'meta' carries a 4-byte header before its children
        (if t = metaT then pBytes 4 f (pos + 8)
         else some ([], pos + 8)).bind fun hp =>
          (children f hp.2 (pos + size)).bind fun sq =>
            -- ar.done(): the children must leave the stream exactly at the
            -- end of the container atom
            if sq.2.1 = pos + size then
              some (.container t hp.1 (collapseOD sq.1) pos size, size,
                sq.2.2 && decide (sq.1.map Prod.fst).Nodup)
            else none
      else if t ∈ skipTypes then
        some (.rawLeaf t pos size, size, true)
      else none

/-- The `while offset < offset1` loop of `parse_container`: parse
successive atoms, record them in sequence, and stop as soon as the next
offset reaches `offset1`.  A declared atom size of 0 cannot advance the
loop: in the source the next iteration either trips the file-offset
consistency check (the header reads moved the stream but `offset` did
not move) or, for a skipped atom, re-seeks to the same place forever; it
is modeled as a failure, as is fuel exhaustion — neither corresponds to
a file the tool ever finishes opening.  Returns the (type, value) sequence
in parse order, the final stream position, and the and-ed cleanliness
flags (duplicate-freedom and stsd length-exactness) of the parsed
atoms. -/
def parseChildrenSeq : Nat → List Nat → Nat → Nat →
    Option (List (List Nat × AtomVal) × Nat × Bool)
  | 0, _, _, _ => none
  | fl + 1, f, off, off1 =>
    if off1 ≤ off then some ([], off, true)
    else
      (parseAtomWith (parseChildrenSeq fl) f off).bind fun vp =>
        if vp.2.1 = 0 then none
        else
          (parseChildrenSeq fl f (off + vp.2.1) off1).bind fun sq =>
            some ((vp.1.typeCode, vp.1) :: sq.1, sq.2.1, vp.2.2 && sq.2.2)

/-- Parse one atom at a given fuel (the entry point corresponding to one
dispatch step of `parse_container`). -/
def parseAtomAt (fuel : Nat) (f : List Nat) (pos : Nat) :
    Option (AtomVal × Nat × Bool) :=
  parseAtomWith (parseChildrenSeq fuel) f pos

/-- Round-trip property of one parsed atom at a given fuel: serialization
reproduces exactly the atom's byte range, provided the atom's declared
range lies inside the file, no container inside it dropped a
duplicate-typed child, and every stsd sample description inside it
re-emits its declared length (the `true` flag).  Also records that the
serialized image has exactly the declared length. -/
def AtomRT (fl : Nat) : Prop :=
  ∀ f pos v sz, bytesOk f → parseAtomAt fl f pos = some (v, sz, true) →
    pos + sz ≤ f.length →
    writeAtom f v = slice f pos sz ∧ (writeAtom f v).length = sz

/-- Round-trip property of a parsed child sequence at a given fuel:
serializing the children in parse order reproduces the bytes between the
start offset and the final stream position. -/
def ChildrenRT (fl : Nat) : Prop :=
  ∀ f off off1 seq fin, bytesOk f →
    parseChildrenSeq fl f off off1 = some (seq, fin, true) →
    fin ≤ f.length →
    writeKids f seq = slice f off (fin - off) ∧ off ≤ fin ∧
      (writeKids f seq).length = fin - off

/-! ### Opening a file (`MP4.__init__`) and concrete inputs -/

/-- Key lookup in a parsed `OrderedDict` (`info['moov']` etc.). -/
def odGet (kids : List (List Nat × AtomVal)) (t : List Nat) : Option AtomVal :=
  (kids.find? fun kv => kv.1 = t).map Prod.snd

/-- The children of a container atom (`KeyError`-style `none` when the
value is not a container). -/
def AtomVal.childList : AtomVal → Option (List (List Nat × AtomVal))
  | .container _ _ kids _ _ => some kids
  | _ => none

/-- `MP4.__init__`: parse the whole file as a top-level container walk
(the final atom may overrun the end of the file — the loop does not
check), then follow the path moov/trak/mdia/minf/stbl (a missing link is
a `KeyError` crash, i.e. the file is not opened), and check for `stss`;
when `stss` is missing, `synthesize_stss_all_keyframes` reads the `stsz`
table (`KeyError` crash when that is missing too) and installs an
in-memory all-keyframes `stss`.  The synthesized in-memory entry itself
is irrelevant to every claim proved here (the files used below carry an
`stss`), so the returned dictionary is the parsed one.  The fuel
`f.length + 1` is enough for every file whose parse terminates, since
each parsed atom advances the offset by at least one byte. -/
def mp4_open (f : List Nat) : Option (List (List Nat × AtomVal)) :=
  (parseChildrenSeq (f.length + 1) f 0 f.length).bind fun sq =>
    let info := collapseOD sq.1
    (odGet info moovT).bind fun moov =>
      moov.childList.bind fun moovKids =>
        (odGet moovKids trakT).bind fun trak =>
          trak.childList.bind fun trakKids =>
            (odGet trakKids mdiaT).bind fun mdia =>
              mdia.childList.bind fun mdiaKids =>
                (odGet mdiaKids minfT).bind fun minf =>
                  minf.childList.bind fun minfKids =>
                    (odGet minfKids stblT).bind fun stbl =>
                      stbl.childList.bind fun stblKids =>
                        match odGet stblKids stssT with
                        | some _ => some info
                        | none => (odGet stblKids stszT).map fun _ => info

/-- A concrete 108-byte `mvhd` atom with all fields zero. -/
def mvhdB : List Nat := u32be 108 ++ mvhdT ++ List.replicate 100 0

/-- A concrete `dref` atom with exactly one 12-byte data reference. -/
def drefB : List Nat :=
  u32be 28 ++ drefT ++ List.replicate 4 0 ++ u32be 1 ++
    (u32be 12 ++ List.replicate 8 0)

/-- A concrete `stss` atom: sample 1 is a keyframe. -/
def stssB : List Nat :=
  u32be 20 ++ stssT ++ List.replicate 4 0 ++ u32be 1 ++ u32be 1

/-- A `udta` container with two `free` children — two children of the
same type code, which the parsed `OrderedDict` cannot represent: the
second replaces the first. -/
def udtaB : List Nat :=
  u32be 24 ++ udtaT ++ (u32be 8 ++ freeT) ++ (u32be 8 ++ freeT)

def stblMinB : List Nat := u32be 28 ++ stblT ++ stssB

def minfMinB : List Nat := u32be 36 ++ minfT ++ stblMinB

def mdiaMinB : List Nat := u32be 44 ++ mdiaT ++ minfMinB

def trakMinB : List Nat := u32be 52 ++ trakT ++ mdiaMinB

/-- An 84-byte file that `MP4.__init__` opens without complaint: a moov
with the full trak/mdia/minf/stbl path and an `stss`, plus a `udta` whose
two `free` children collide in the `OrderedDict`; the `udta` sits at byte
offset 60. -/
def fileF : List Nat := u32be 84 ++ moovT ++ trakMinB ++ udtaB

/-- The parsed value of the single concrete `mvhd` atom. -/
def mvhdValW : AtomVal :=
  .mvhd [0] [0, 0, 0] 0 0 0 0 (List.replicate 80 0)

/-- The parsed value of the single concrete `dref` atom. -/
def drefValW : AtomVal :=
  .dref [0] [0, 0, 0] [⟨[0, 0, 0, 0], [0], [0, 0, 0], []⟩] 0 28

/-- A syntactically well-formed `dref` atom that declares two data
references. -/
def drefAtom2 : List Nat :=
  u32be 40 ++ drefT ++ List.replicate 4 0 ++ u32be 2 ++
    (u32be 12 ++ List.replicate 8 0) ++ (u32be 12 ++ List.replicate 8 0)

/-- A 34-byte `stsd` atom whose single sample description declares
length 17: the `read(17 - 18)` tail read is negative, runs to end of
file, and is absorbed exactly at the atom's declared end, so `done()`
passes and the parse succeeds — with the length-exactness flag
`false`. -/
def stsdBad : List Nat :=
  u32be 34 ++ stsdT ++ List.replicate 4 0 ++ u32be 1 ++
    (u32be 17 ++ List.replicate 6 1 ++ List.replicate 6 0 ++ [0, 0])

/-! ### The chunk model (`Chunk`, `MP4.chunk_info`, `MP4.chunks`)

This layer works on the already-parsed index tables of one video, carried
in a `VideoInfo` record (the fields correspond to
`info['moov']['trak']['mdia']['minf']['stbl'][...]` and `info['mdat']`). -/

/-- One entry of `stsc.sample_to_chunk_map`. -/
structure StscEntry where
  first_chunk : Nat
  samples_per_chunk : Nat
  sample_description_id : Nat
deriving DecidableEq

/-- The parsed tables of one video that the chunk derivation reads. -/
structure VideoInfo where
  stsc : List StscEntry
  stsz : List Nat
  stss : List Nat
  stsd : List SampleDescription
  stco : List Nat
  mdat_position : Nat
  mdat_atomsize : Nat

/-- `MP4.chunk_info` (chunkno is 0-based): start from
`sample_to_chunk_map[0]` (an empty map raises `IndexError`), assert its
`first_chunk` is 1, then scan the remaining entries keeping the one with
the largest `first_chunk` not exceeding `chunkno + 1`. -/
def chunk_info (sample_to_chunk_map : List StscEntry) (chunkno : Nat) :
    Option StscEntry :=
  match sample_to_chunk_map with
  | [] => none
  | info0 :: rest =>
    if info0.first_chunk = 1 then
      some (rest.foldl (fun info i =>
        if i.first_chunk ≤ chunkno + 1 ∧ info.first_chunk < i.first_chunk
        then i else info) info0)
    else none

/-- Python list indexing: a negative index wraps once from the end;
anything still out of range is an `IndexError`. -/
def pyIndex (l : List α) (i : Int) : Option α :=
  if 0 ≤ i then l.get? i.toNat
  else if 0 ≤ i + l.length then l.get? (i + l.length).toNat else none

/-- The loop of `Chunk._compute_samples` that finds the first (inclusive)
and last (exclusive) sample numbers:
`for i in range(0, chunkno+1): first = last; last += samples_per_chunk`. -/
def srAux (m : List StscEntry) : Nat → Nat → Nat → Nat → Option (Nat × Nat)
  | _, 0, first, last => some (first, last)
  | i, n + 1, _, last =>
    (chunk_info m i).bind fun e =>
      srAux m (i + 1) n last (last + e.samples_per_chunk)

def sampleRange (v : VideoInfo) (chunkno : Nat) : Option (Nat × Nat) :=
  srAux v.stsc 0 (chunkno + 1) 0 0

/-- The data `Chunk.__init__` computes for one chunk. -/
structure DChunk where
  chunkno : Nat
  offset : Nat
  sample_sizes : List Nat
  first_sample : Nat
  length : Nat
  keyframes : List Nat
  sample_description : SampleDescription

/-- `Chunk.__init__`: read the chunk's offset from `stco.chunk_offsets`
(an out-of-range chunk number is an `IndexError`), run
`_compute_samples` (slice `stsz.sample_sizes[first:last]`, total the
byte length, and collect each `stss` entry `s` with
`first_sample <= s-1 < last_sample` as the local offset `s-1-first`; for
a 1-based `s` this is `first+1 <= s` and `s <= last`, which also rules
out `s = 0`, whose Python value `s-1 = -1` never passes), then look up
the sample description by `sample_description_id - 1` with Python index
semantics. -/
def mkChunk (v : VideoInfo) (chunkno : Nat) : Option DChunk :=
  (v.stco.get? chunkno).bind fun off =>
    (sampleRange v chunkno).bind fun fl =>
      let sizes := (v.stsz.drop fl.1).take (fl.2 - fl.1)
      let keyframes := (v.stss.filter fun s => fl.1 + 1 ≤ s ∧ s ≤ fl.2).map
        fun s => s - 1 - fl.1
      (chunk_info v.stsc chunkno).bind fun ci =>
        (pyIndex v.stsd ((ci.sample_description_id : Int) - 1)).map fun sd =>
          ⟨chunkno, off, sizes, fl.1, sizes.sum, keyframes, sd⟩

/-- Failure kinds of `MP4.chunks`: `exception` for a failure while
constructing a `Chunk`, `contiguity` for the two tiling checks (the
in-loop `Expected chunk %d to start at %d` raise and the final
`assert pos == mdat._position + mdat.atomsize`) — the spec's
ChunkContiguityViolation. -/
inductive ChunksErr where
  | exception
  | contiguity
deriving DecidableEq

/-- The list comprehension `[Chunk(self, i) for i in range(0, len(chunk_offsets))]`,
starting at index `i` for `n` chunks. -/
def buildChunksAux (v : VideoInfo) : Nat → Nat → Option (List DChunk)
  | _, 0 => some []
  | i, n + 1 =>
    (mkChunk v i).bind fun c =>
      (buildChunksAux v (i + 1) n).map fun cs => c :: cs

def buildChunks (v : VideoInfo) : Option (List DChunk) :=
  buildChunksAux v 0 v.stco.length

/-- The contiguity loop of `MP4.chunks`: check each chunk starts at the
running position and advance by its byte length; returns the final
position. -/
def contigLoop : Nat → List DChunk → Option Nat
  | pos, [] => some pos
  | pos, c :: cs => if c.offset = pos then contigLoop (pos + c.length) cs else none

/-- `MP4.chunks`: construct the chunks, check that they are contiguous
in the mdat starting at `mdat._position + 8`, and that the final
position is exactly `mdat._position + mdat.atomsize`. -/
def chunks (v : VideoInfo) : Except ChunksErr (List DChunk) :=
  match buildChunks v with
  | none => .error .exception
  | some cl =>
    match contigLoop (v.mdat_position + 8) cl with
    | none => .error .contiguity
    | some pos =>
      if pos = v.mdat_position + v.mdat_atomsize then .ok cl
      else .error .contiguity

def isOkE : Except ε α → Bool
  | .ok _ => true
  | .error _ => false

/-- The byte length of derived chunk `i` (0 when derivation fails). -/
def chunkLengthD (v : VideoInfo) (i : Nat) : Nat :=
  ((mkChunk v i).map DChunk.length).getD 0

/-- Every chunk of the file can be derived. -/
def derivOkB (v : VideoInfo) : Bool :=
  (List.range v.stco.length).all fun i => (mkChunk v i).isSome

/-- The claim's tiling conditions, transcribed: the first chunk's stco
offset is `mdat._position + 8`; each following chunk's offset is the
previous chunk's offset plus its byte length; the final chunk ends
exactly at `mdat._position + mdat.atomsize`. -/
def tilesMdatB (v : VideoInfo) : Bool :=
  (decide (v.stco.length = 0) ||
    decide (v.stco.getD 0 0 = v.mdat_position + 8)) &&
  ((List.range (v.stco.length - 1)).all fun i =>
    decide (v.stco.getD (i + 1) 0 = v.stco.getD i 0 + chunkLengthD v i)) &&
  (decide (v.stco.length = 0) ||
    decide (v.stco.getD (v.stco.length - 1) 0 +
      chunkLengthD v (v.stco.length - 1) = v.mdat_position + v.mdat_atomsize))

/-- A concrete video: one chunk of two samples tiling its mdat exactly. -/
def vW : VideoInfo where
  stsc := [⟨1, 2, 1⟩]
  stsz := [5, 7]
  stss := [1]
  stsd := [⟨List.replicate 6 0, List.replicate 6 0, 0, []⟩]
  stco := [108]
  mdat_position := 100
  mdat_atomsize := 20

/-! ### The in-place update engine (`MP4.update_in_place_using_chunks`)

The destination's parsed state is carried in `MP4State`: the typed moov
subtree (`MoovA`, with the untouched opaque children as raw atom
images), the recorded positions of the top-level atoms, and the
destination file itself as an explicit byte-list state (`FS`) threaded
through every write. -/

/-- One edit of `elst.edits`. -/
structure Edit where
  duration : Nat
  start_time : Nat
  rate : Nat
deriving DecidableEq

/-- One entry of `stts.time_to_sample_map`. -/
structure SttsEntry where
  sample_count : Nat
  sample_duration : Nat
deriving DecidableEq

structure MvhdA where
  version : List Nat
  flags : List Nat
  creation_time : Nat
  modification_time : Nat
  time_scale : Nat
  duration : Nat
  unparsed : List Nat
deriving DecidableEq

structure TkhdA where
  version : List Nat
  flags : List Nat
  creation_time : Nat
  modification_time : Nat
  track_id : Nat
  reserved1 : List Nat
  duration : Nat
  unparsed : List Nat
  track_width : Nat
  track_height : Nat
deriving DecidableEq

structure ElstA where
  version : List Nat
  flags : List Nat
  edits : List Edit
deriving DecidableEq

structure MdhdA where
  version : List Nat
  flags : List Nat
  creation_time : Nat
  modification_time : Nat
  time_scale : Nat
  duration : Nat
  language : Nat
  quality : Nat
deriving DecidableEq

structure StsdA where
  version : List Nat
  flags : List Nat
  sample_descriptions : List SampleDescription
deriving DecidableEq

structure SttsA where
  version : List Nat
  flags : List Nat
  time_to_sample_map : List SttsEntry
deriving DecidableEq

structure StssA where
  version : List Nat
  flags : List Nat
  key_frame_samples : List Nat
deriving DecidableEq

structure StscA where
  version : List Nat
  flags : List Nat
  sample_to_chunk_map : List StscEntry
deriving DecidableEq

structure StszA where
  version : List Nat
  flags : List Nat
  sample_sizes : List Nat
deriving DecidableEq

structure StcoA where
  version : List Nat
  flags : List Nat
  chunk_offsets : List Nat
deriving DecidableEq

/-- The typed moov subtree the update engine copies and mutates.  The
children that the engine never touches (`hdlr`, `vmhd`, the `dinf`
subtree, and any further opaque children per container, `extra*`) are
carried as their raw atom images: `write_atom` byte-copies them from the
unmodified region of the destination, which is read before any write.
Serialization order of the children inside each container is fixed here
(the source emits them in parse order); no claim depends on it. -/
structure MoovA where
  mvhd : MvhdA
  tkhd : TkhdA
  elst : ElstA
  mdhd : MdhdA
  hdlr : List Nat
  vmhd : List Nat
  dinf : List Nat
  stsd : StsdA
  stts : SttsA
  stss : StssA
  stsc : StscA
  stsz : StszA
  stco : StcoA
  extraTrak : List Nat
  extraMdia : List Nat
  extraMinf : List Nat
  extraStbl : List Nat
  extraMoov : List Nat
  _position : Nat
deriving DecidableEq

/-- `write_atom` on the stbl subtree of the copy. -/
def writeStbl (m : MoovA) : List Nat :=
  atomBytes stblT
    (unparse_stsd m.stsd.version m.stsd.flags m.stsd.sample_descriptions ++
     unparse_stts m.stts.version m.stts.flags
       (m.stts.time_to_sample_map.map fun e => (e.sample_count, e.sample_duration)) ++
     unparse_stss m.stss.version m.stss.flags m.stss.key_frame_samples ++
     unparse_stsc m.stsc.version m.stsc.flags
       (m.stsc.sample_to_chunk_map.map fun e =>
         (e.first_chunk, e.samples_per_chunk, e.sample_description_id)) ++
     unparse_stsz m.stsz.version m.stsz.flags m.stsz.sample_sizes ++
     unparse_stco m.stco.version m.stco.flags m.stco.chunk_offsets ++
     m.extraStbl)

def writeMinf (m : MoovA) : List Nat :=
  atomBytes minfT (m.vmhd ++ m.dinf ++ writeStbl m ++ m.extraMinf)

def writeMdia (m : MoovA) : List Nat :=
  atomBytes mdiaT
    (unparse_mdhd m.mdhd.version m.mdhd.flags m.mdhd.creation_time
       m.mdhd.modification_time m.mdhd.time_scale m.mdhd.duration
       m.mdhd.language m.mdhd.quality ++
     m.hdlr ++ writeMinf m ++ m.extraMdia)

def writeEdts (m : MoovA) : List Nat :=
  atomBytes edtsT
    (unparse_elst m.elst.version m.elst.flags
      (m.elst.edits.map fun e => (e.duration, e.start_time, e.rate)))

def writeTrak (m : MoovA) : List Nat :=
  atomBytes trakT
    (unparse_tkhd m.tkhd.version m.tkhd.flags m.tkhd.creation_time
       m.tkhd.modification_time m.tkhd.track_id m.tkhd.reserved1
       m.tkhd.duration m.tkhd.unparsed m.tkhd.track_width m.tkhd.track_height ++
     writeEdts m ++ writeMdia m ++ m.extraTrak)

/-- `self.write_atom(moov)` on the updated copy. -/
def writeMoov (m : MoovA) : List Nat :=
  atomBytes moovT
    (unparse_mvhd m.mvhd.version m.mvhd.flags m.mvhd.creation_time
       m.mvhd.modification_time m.mvhd.time_scale m.mvhd.duration
       m.mvhd.unparsed ++
     writeTrak m ++ m.extraMoov)

/-- The destination file as a byte list with the stream position
(`self.fp`). -/
structure FS where
  bytes : List Nat
  pos : Nat
deriving DecidableEq

def FS.seek (fs : FS) (p : Nat) : FS := ⟨fs.bytes, p⟩

/-- A write at the current position overwrites in place, zero-fills any
gap past the end of the file, and advances the position. -/
def FS.write (fs : FS) (data : List Nat) : FS :=
  ⟨fs.bytes.take fs.pos ++ List.replicate (fs.pos - fs.bytes.length) 0 ++
     data ++ fs.bytes.drop (fs.pos + data.length),
   fs.pos + data.length⟩

/-- `self.fp.truncate()` at the current position. -/
def FS.truncate (fs : FS) : FS := ⟨fs.bytes.take fs.pos, fs.pos⟩

/-- One chunk as the update engine consumes it: `chunk.offset`,
`chunk.sample_sizes`, `chunk.keyframes` (local keyframe offsets),
`chunk.sample_description`, its video's pixel dimensions
(`chunk.video.dimensions()`), whether its video *is* the destination
(`chunk.video == self`), and its source file's bytes (read during the
mdat copy). -/
structure ChunkData where
  offset : Nat
  sample_sizes : List Nat
  keyframes : List Nat
  sample_description : SampleDescription
  dims : Nat × Nat
  fromSelf : Bool
  srcBytes : List Nat
deriving DecidableEq

/-- `chunk.length = sum(chunk.sample_sizes)` — the chunk's byte length. -/
def ChunkData.length (c : ChunkData) : Nat := c.sample_sizes.sum

/-- The destination as parsed by `MP4.__init__`: handle writability, the
typed moov, presence and position of the top-level `free`, the mdat
bookkeeping, and the file state. -/
structure MP4State where
  writable : Bool
  fs : FS
  moov : MoovA
  hasFree : Bool
  free_position : Nat
  mdat_position : Nat
  mdat_atomsize : Nat

/-- `MP4.dimensions()` of the destination. -/
def destDimensions (s : MP4State) : Nat × Nat :=
  (s.moov.tkhd.track_width, s.moov.tkhd.track_height)

/-- The causes of `NeedsRewriteException`. -/
inductive NRWhy where
  | missingFree
  | disordered
  | notEnoughFreeSpace
deriving DecidableEq

/-- The failures `update_in_place_using_chunks` can raise.  `exception`
covers the plain `assert`s and index errors (`AssertionError`,
`IndexError`, `ZeroDivisionError`), which are distinct from
`NeedsRewriteException`. -/
inductive UpdErr where
  | notWritable
  | dimensionMismatch
  | needsRewrite (why : NRWhy) (space_needed : Nat)
  | exception
deriving DecidableEq

/-- The dimension check: `for chunk in chunks[1:]`, compare
`chunks[0].video.dimensions()` with `chunk.video.dimensions()`.  Note
that the comparison baseline is the first chunk's video, not the
destination. -/
def dimMismatch : List ChunkData → Bool
  | [] => false
  | c0 :: rest => rest.any fun c => c0.dims ≠ c.dims

/-- The stco rebuild: `pos = mdat._position + 8`, then append `pos` and
advance it by each chunk's length. -/
def stcoLoop (pos : Nat) : List ChunkData → List Nat
  | [] => []
  | c :: cs => pos :: stcoLoop (pos + c.length) cs

/-- The stsz rebuild: extend with each chunk's `sample_sizes` in order. -/
def stszAll : List ChunkData → List Nat
  | [] => []
  | c :: cs => c.sample_sizes ++ stszAll cs

/-- Python's `list.index`: the first position of an element (only ever
called here when the element is present). -/
def listIndex (d : SampleDescription) : List SampleDescription → Nat
  | [] => 0
  | x :: xs => if x = d then 0 else listIndex d xs + 1

/-- The combined stsc/stsd rebuild loop: for each chunk (0-based `i`),
append its sample description to the deduplicated list unless already
present, and emit the run
`(first_chunk = i+1, samples_per_chunk = len(sample_sizes),
sample_description_id = index+1)` against the current list. -/
def stscStsdLoop :
    Nat → List StscEntry → List SampleDescription → List ChunkData →
      List StscEntry × List SampleDescription
  | _, runs, descs, [] => (runs, descs)
  | i, runs, descs, c :: cs =>
    let descs' := if c.sample_description ∈ descs then descs
      else descs ++ [c.sample_description]
    stscStsdLoop (i + 1)
      (runs ++ [⟨i + 1, c.sample_sizes.length,
        listIndex c.sample_description descs' + 1⟩])
      descs' cs

/-- The stss rebuild: `sampleno = 1`; for each chunk append
`sampleno + keyframe` for each local keyframe, then advance `sampleno`
by the chunk's sample count. -/
def stssLoop (sampleno : Nat) : List ChunkData → List Nat
  | [] => []
  | c :: cs =>
    c.keyframes.map (fun k => sampleno + k) ++
      stssLoop (sampleno + c.sample_sizes.length) cs

/-- The `nsamples` accumulation loop. -/
def nsamplesOf (chunks : List ChunkData) : Nat :=
  chunks.foldl (fun a c => a + c.sample_sizes.length) 0

/-- `int(duration * time_scale + 0.5)` for
`duration = float(nsamples * sample_duration) / mdhd_time_scale`, with
Python float arithmetic modeled as exact rational arithmetic (no claim
depends on the duration fields). -/
def durRound (nsamples sample_duration ts mts : Nat) : Nat :=
  (2 * (nsamples * sample_duration) * ts + mts) / (2 * mts)

/-- The pure moov rebuild (source lines 614–685): deep-copy the moov,
recompute the durations, and rebuild the six index tables.  The plain
failures — `stts[0]` on an empty map, `ZeroDivisionError` when
`sample_duration` or `mdhd.time_scale` is 0, `assert len(edits) == 1`,
`assert edits[0].rate == 65536`, `assert len(time_to_sample_map) == 1` —
are all raised before any byte of the destination is written. -/
def rebuild_moov (s : MP4State) (chunks : List ChunkData) :
    Except Unit MoovA :=
  let moov := s.moov
  match moov.stts.time_to_sample_map with
  | [] => .error ()
  | e0 :: restStts =>
    let sample_duration := e0.sample_duration
    let mts := moov.mdhd.time_scale
    let nsamples := nsamplesOf chunks
    if sample_duration = 0 then .error ()
    else if mts = 0 then .error ()
    else
      let durTicks := durRound nsamples sample_duration moov.mvhd.time_scale mts
      match moov.elst.edits with
      | [e] =>
        if e.rate ≠ 65536 then .error ()
        else if restStts ≠ [] then .error ()
        else
          let rd := stscStsdLoop 0 [] [] chunks
          .ok { moov with
            mdhd := { moov.mdhd with duration := sample_duration * nsamples }
            mvhd := { moov.mvhd with duration := durTicks }
            tkhd := { moov.tkhd with duration := durTicks }
            elst := { moov.elst with edits := [{ e with duration := durTicks }] }
            stco := { moov.stco with
              chunk_offsets := stcoLoop (s.mdat_position + 8) chunks }
            stsz := { moov.stsz with sample_sizes := stszAll chunks }
            stsc := { moov.stsc with sample_to_chunk_map := rd.1 }
            stsd := { moov.stsd with sample_descriptions := rd.2 }
            stss := { moov.stss with key_frame_samples := stssLoop 1 chunks }
            stts := { moov.stts with
              time_to_sample_map := [{ e0 with sample_count := nsamples }] } }
      | _ => .error ()

/-- `self.write_free_atom(space)`. -/
def write_free_atom (space : Nat) : List Nat :=
  u32be (space + 8) ++ freeT ++ List.replicate space 0

/-- The per-chunk mdat copy loop: a chunk from the destination itself
must already sit at the current position (`assert`), and is skipped by
seeking past it; any other chunk is read from its source
(`seek(chunk.offset); read(chunk.length)`, short near end of file like
Python's `read`) and written at the current position.  Returns whether
the loop completed and the file state reached. -/
def copyLoop : FS → List ChunkData → Bool × FS
  | fs, [] => (true, fs)
  | fs, c :: cs =>
    if c.fromSelf then
      if c.offset = fs.pos then copyLoop (fs.seek (c.length + fs.pos)) cs
      else (false, fs)
    else copyLoop (fs.write (slice c.srcBytes c.offset c.length)) cs

/-- The write phase (source lines 693–730): seek to the mdat, write the
new size header and the literal `mdat`, copy the chunks, check the final
position, truncate, then seek to the moov position and write the new
moov image followed by the shrunk free atom, and check that this lands
exactly at the mdat position.  All failures here are plain
`AssertionError`s. -/
def writePhase (s : MP4State) (chunks : List ChunkData) (m' : MoovA)
    (moov_out : List Nat) (free_len : Nat) : Except Unit MoovA × FS :=
  let fs0 := s.fs.seek s.mdat_position
  let length := chunks.foldl (fun acc c => acc + c.length) 8
  let begin_mdat := fs0.pos
  let fs2 := (fs0.write (u32be length)).write mdatT
  match copyLoop fs2 chunks with
  | (false, fsE) => (.error (), fsE)
  | (true, fs3) =>
    if fs3.pos = begin_mdat + length then
      let fs5 := fs3.truncate.seek m'._position
      let fs7 := (fs5.write moov_out).write (write_free_atom free_len)
      if fs7.pos = s.mdat_position then (.ok m', fs7)
      else (.error (), fs7)
    else (.error (), fs3)

/-- `MP4.update_in_place_using_chunks`: the writability check, the
dimension check against the first chunk's video, the two
`NeedsRewriteException` section checks, the pure moov rebuild, the
serialized-moov size check (`NeedsRewriteException` with the missing
space), and finally the write phase.  The returned pair is the result —
the rebuilt moov on success — together with the destination file state. -/
def update_in_place_using_chunks (s : MP4State) (chunks : List ChunkData) :
    Except UpdErr MoovA × FS :=
  if s.writable = false then (.error .notWritable, s.fs)
  else if dimMismatch chunks then (.error .dimensionMismatch, s.fs)
  else if s.hasFree = false then
    (.error (.needsRewrite .missingFree 0), s.fs)
  else if s.moov._position > s.free_position ∨
      s.free_position > s.mdat_position then
    (.error (.needsRewrite .disordered 0), s.fs)
  else
    match rebuild_moov s chunks with
    | .error _ => (.error .exception, s.fs)
    | .ok m' =>
      let moov_out := writeMoov m'
      let free_len : Int := (s.mdat_position : Int) - (s.moov._position : Int)
        - (moov_out.length : Int) - 8
      if free_len < 0 then
        (.error (.needsRewrite .notEnoughFreeSpace (-free_len).toNat), s.fs)
      else
        match writePhase s chunks m' moov_out free_len.toNat with
        | (.error _, fs') => (.error .exception, fs')
        | (.ok m'', fs') => (.ok m'', fs')

/-- The rebuilt moov of a successful update. -/
def updatedMoov (s : MP4State) (chunks : List ChunkData) : Option MoovA :=
  match (update_in_place_using_chunks s chunks).1 with
  | .ok m => some m
  | .error _ => none

/-- First-seen-order deduplication (the incremental
`if chunk.sample_description not in sample_descriptions: append` of the
rebuild loop, as a standalone fold). -/
def dedupFS (l : List SampleDescription) : List SampleDescription :=
  l.foldl (fun acc d => if d ∈ acc then acc else acc ++ [d]) []

/-- The claim's 1-based index of the first sample of chunk `i`:
`base(0) = 1`, `base(i+1) = base(i) + len(chunks[i].sample_sizes)` — in
closed form. -/
def baseIdx (chunks : List ChunkData) (i : Nat) : Nat :=
  1 + ((chunks.take i).map fun c => c.sample_sizes.length).sum

/-! ### Concrete destination states and chunks for the update engine -/

def dW : SampleDescription :=
  ⟨List.replicate 6 1, List.replicate 6 0, 0, []⟩

def mvhdA0 : MvhdA :=
  { version := [0], flags := [0, 0, 0], creation_time := 0
    modification_time := 0, time_scale := 600, duration := 0
    unparsed := List.replicate 80 0 }

def tkhdA0 : TkhdA :=
  { version := [0], flags := [0, 0, 0], creation_time := 0
    modification_time := 0, track_id := 1
    reserved1 := List.replicate 4 0, duration := 0
    unparsed := List.replicate 56 0
    track_width := 640, track_height := 480 }

def mA : MoovA :=
  { mvhd := mvhdA0, tkhd := tkhdA0
    elst := ⟨[0], [0, 0, 0], [⟨0, 0, 65536⟩]⟩
    mdhd := ⟨[0], [0, 0, 0], 0, 0, 600, 0, 0, 0⟩
    hdlr := [], vmhd := [], dinf := []
    stsd := ⟨[0], [0, 0, 0], [dW]⟩
    stts := ⟨[0], [0, 0, 0], [⟨5, 100⟩]⟩
    stss := ⟨[0], [0, 0, 0], [1]⟩
    stsc := ⟨[0], [0, 0, 0], [⟨1, 5, 1⟩]⟩
    stsz := ⟨[0], [0, 0, 0], [1, 1, 1, 1, 1]⟩
    stco := ⟨[0], [0, 0, 0], [500]⟩
    extraTrak := [], extraMdia := [], extraMinf := [], extraStbl := []
    extraMoov := [], _position := 16 }

/-- A chunk sourced from another video: one 3-byte sample, a keyframe at
local offset 0, 640×480. -/
def cW : ChunkData :=
  { offset := 0, sample_sizes := [3], keyframes := [0]
    sample_description := dW, dims := (640, 480), fromSelf := false
    srcBytes := [9, 9, 9, 9, 9] }

/-- A 1280×720 chunk. -/
def cA : ChunkData := { cW with dims := (1280, 720) }

/-- A 640×480 chunk. -/
def cB : ChunkData := { cW with dims := (640, 480) }

/-- A destination on which the update succeeds: moov at 16, a free atom,
mdat at 494, and just enough slack for the rebuilt moov (462 bytes) plus
the minimal shrunk free atom. -/
def sOK : MP4State where
  writable := true
  fs := ⟨List.replicate 520 7, 0⟩
  moov := mA
  hasFree := true
  free_position := 478
  mdat_position := 494
  mdat_atomsize := 26

/-- The same destination without a top-level free atom. -/
def sNR : MP4State := { sOK with hasFree := false }

/-- A default chunk (never reached by the `getD` lookups below). -/
def dummyChunk : ChunkData := ⟨0, [], [], dW, (0, 0), false, []⟩

/-- The successful destination, but with 1280×720 track dimensions. -/
def sOK2 : MP4State :=
  { sOK with moov :=
    { mA with tkhd :=
      { tkhdA0 with track_width := 1280, track_height := 720 } } }

theorem slice_length (f : List Nat) (pos n : Nat) (h : pos + n ≤ f.length) :
    (slice f pos n).length = n := by
  simp only [slice, List.length_take, List.length_drop]
  omega

theorem mem_slice (f : List Nat) (pos n : Nat) (b : Nat)
    (hb : b ∈ slice f pos n) : b ∈ f := by
  simp only [slice] at hb
  exact List.mem_of_mem_drop (List.mem_of_mem_take hb)

theorem slice_len (f : List Nat) (pos n : Nat) :
    (slice f pos n).length = min n (f.length - pos) := by
  simp [slice]

theorem slice_self (f : List Nat) (pos n : Nat) :
    slice f pos ((slice f pos n).length) = slice f pos n := by
  rcases Nat.le_total n (f.drop pos).length with h | h
  · simp [slice, List.length_take, Nat.min_eq_left h]
  · simp only [slice, List.length_take, Nat.min_eq_right h]
    rw [List.take_length, List.take_of_length_le h]

theorem slice_split (f : List Nat) (pos m k : Nat) :
    slice f pos (m + k) = slice f pos m ++ slice f (pos + m) k := by
  simp only [slice, List.take_add, List.drop_drop]

theorem be32l_eq (a b c d : Nat) :
    be32l [a, b, c, d] = ((a * 256 + b) * 256 + c) * 256 + d := by
  simp [be32l]

theorem be16l_eq (a b : Nat) : be16l [a, b] = a * 256 + b := by
  simp [be16l]

theorem u32be_be32l (l : List Nat) (hl : l.length = 4)
    (hb : ∀ x ∈ l, x < 256) : u32be (be32l l) = l := by
  match l, hl with
  | [a, b, c, d], _ =>
    have ha : a < 256 := hb a (by simp)
    have hbb : b < 256 := hb b (by simp)
    have hc : c < 256 := hb c (by simp)
    have hd : d < 256 := hb d (by simp)
    rw [be32l_eq]
    simp only [u32be, List.cons.injEq, and_true]
    refine ⟨?_, ?_, ?_, ?_⟩ <;> omega

theorem u16be_be16l (l : List Nat) (hl : l.length = 2)
    (hb : ∀ x ∈ l, x < 256) : u16be (be16l l) = l := by
  match l, hl with
  | [a, b], _ =>
    have ha : a < 256 := hb a (by simp)
    have hbb : b < 256 := hb b (by simp)
    rw [be16l_eq]
    simp only [u16be, List.cons.injEq, and_true]
    refine ⟨?_, ?_⟩ <;> omega

theorem pBytes_eq_some {n : Nat} {f : List Nat} {p : Nat} {l : List Nat}
    {p' : Nat} (h : pBytes n f p = some (l, p')) :
    l = slice f p n ∧ p' = p + (slice f p n).length := by
  simp only [pBytes, Option.some.injEq, Prod.mk.injEq] at h
  exact ⟨h.1.symm, h.2.symm⟩

theorem emits_pBytes (n : Nat) : Emits (pBytes n) (fun l => l) := by
  intro f p a p' _ h
  obtain ⟨rfl, rfl⟩ := pBytes_eq_some h
  have hl := slice_len f p n
  refine ⟨?_, by omega, fun hp => by omega⟩
  rw [Nat.add_sub_cancel_left]
  exact (slice_self f p n).symm

theorem pU32_eq_some {f : List Nat} {p x p' : Nat}
    (h : pU32 f p = some (x, p')) :
    x = be32l (slice f p 4) ∧ p' = p + 4 ∧ p + 4 ≤ f.length := by
  simp only [pU32] at h
  split at h
  · simp only [Option.some.injEq, Prod.mk.injEq] at h
    rename_i hle
    exact ⟨h.1.symm, h.2.symm, hle⟩
  · exact absurd h (by simp)

theorem pU16_eq_some {f : List Nat} {p x p' : Nat}
    (h : pU16 f p = some (x, p')) :
    x = be16l (slice f p 2) ∧ p' = p + 2 ∧ p + 2 ≤ f.length := by
  simp only [pU16] at h
  split at h
  · simp only [Option.some.injEq, Prod.mk.injEq] at h
    rename_i hle
    exact ⟨h.1.symm, h.2.symm, hle⟩
  · exact absurd h (by simp)

theorem emits_pU32 : Emits pU32 u32be := by
  intro f p a p' hb h
  obtain ⟨rfl, rfl, hle⟩ := pU32_eq_some h
  have hlen : (slice f p 4).length = 4 := slice_length f p 4 hle
  have hlb : ∀ x ∈ slice f p 4, x < 256 := fun x hx => hb x (mem_slice f p 4 x hx)
  refine ⟨?_, by omega, fun _ => by omega⟩
  rw [u32be_be32l _ hlen hlb, Nat.add_sub_cancel_left]

theorem emits_pU16 : Emits pU16 u16be := by
  intro f p a p' hb h
  obtain ⟨rfl, rfl, hle⟩ := pU16_eq_some h
  have hlen : (slice f p 2).length = 2 := slice_length f p 2 hle
  have hlb : ∀ x ∈ slice f p 2, x < 256 := fun x hx => hb x (mem_slice f p 2 x hx)
  refine ⟨?_, by omega, fun _ => by omega⟩
  rw [u16be_be16l _ hlen hlb, Nat.add_sub_cancel_left]

theorem emits_pDep {q : P α} {r : α → P β} {w₁ : α → List Nat}
    {w₂ : α → β → List Nat} (hq : Emits q w₁)
    (hr : ∀ a, Emits (r a) (w₂ a)) :
    Emits (pDep q r) (fun ab => w₁ ab.1 ++ w₂ ab.1 ab.2) := by
  intro f p a p' hb h
  simp only [pDep, Option.bind_eq_some, Option.map_eq_some'] at h
  obtain ⟨⟨x, pm⟩, h1, ⟨y, pe⟩, h2, hval⟩ := h
  simp only [Prod.mk.injEq] at hval
  obtain ⟨rfl, rfl⟩ := hval
  obtain ⟨e1, l1, u1⟩ := hq f p x pm hb h1
  obtain ⟨e2, l2, u2⟩ := hr x f pm y pe hb h2
  refine ⟨?_, by omega, fun hp => u2 (u1 hp)⟩
  have hsum : pe - p = (pm - p) + (pe - pm) := by omega
  simp only []
  rw [hsum, slice_split]
  have hpm : p + (pm - p) = pm := by omega
  rw [hpm, e1, e2]

theorem emits_pCount {q : P α} {w : α → List Nat} (hq : Emits q w) :
    ∀ n, Emits (pCount q n) (fun l => (l.map w).flatten) := by
  intro n
  induction n with
  | zero =>
    intro f p a p' _ h
    simp only [pCount, Option.some.injEq, Prod.mk.injEq] at h
    obtain ⟨rfl, rfl⟩ := h
    exact ⟨by simp [slice], Nat.le_refl p, fun hp => hp⟩
  | succ m ih =>
    intro f p a p' hb h
    simp only [pCount, Option.bind_eq_some, Option.map_eq_some'] at h
    obtain ⟨⟨x, pm⟩, h1, ⟨xs, pe⟩, h2, hval⟩ := h
    simp only [Prod.mk.injEq] at hval
    obtain ⟨rfl, rfl⟩ := hval
    obtain ⟨e1, l1, u1⟩ := hq f p x pm hb h1
    obtain ⟨e2, l2, u2⟩ := ih f pm xs pe hb h2
    refine ⟨?_, by omega, fun hp => u2 (u1 hp)⟩
    simp only [List.map_cons, List.flatten_cons]
    have hsum : pe - p = (pm - p) + (pe - pm) := by omega
    rw [hsum, slice_split]
    have hpm : p + (pm - p) = pm := by omega
    rw [hpm, e1]
    exact congrArg (slice f p (pm - p) ++ ·) e2

theorem emits_pGuard {q : P α} {w : α → List Nat} (hq : Emits q w)
    (g : α → Bool) : Emits (pGuard q g) w := by
  intro f p a p' hb h
  simp only [pGuard, Option.bind_eq_some] at h
  obtain ⟨⟨x, pm⟩, h1, h2⟩ := h
  split at h2
  · simp only [Option.some.injEq, Prod.mk.injEq] at h2
    obtain ⟨rfl, rfl⟩ := h2
    exact hq f p x pm hb h1
  · exact absurd h2 (by simp)

/-! ### Round-trip: the serializers reproduce the parsed bytes -/

theorem emits_pVF : Emits pVF (fun t => t.1 ++ t.2) :=
  emits_pDep (emits_pBytes 1) (fun _ => emits_pBytes 3)

theorem emits_mvhd_core : Emits mvhd_core (fun t =>
    (t.1.1 ++ t.1.2) ++ (u32be t.2.1 ++ (u32be t.2.2.1 ++ (u32be t.2.2.2.1 ++
      (u32be t.2.2.2.2.1 ++ t.2.2.2.2.2))))) :=
  emits_pDep emits_pVF (fun _ => emits_pDep emits_pU32 (fun _ =>
    emits_pDep emits_pU32 (fun _ => emits_pDep emits_pU32 (fun _ =>
      emits_pDep emits_pU32 (fun _ => emits_pBytes 80)))))

theorem emits_tkhd_core : Emits tkhd_core (fun t =>
    (t.1.1 ++ t.1.2) ++ (u32be t.2.1 ++ (u32be t.2.2.1 ++ (u32be t.2.2.2.1 ++
      (t.2.2.2.2.1 ++ (u32be t.2.2.2.2.2.1 ++ (t.2.2.2.2.2.2.1 ++
        (u32be t.2.2.2.2.2.2.2.1 ++ u32be t.2.2.2.2.2.2.2.2)))))))) :=
  emits_pDep emits_pVF (fun _ => emits_pDep emits_pU32 (fun _ =>
    emits_pDep emits_pU32 (fun _ => emits_pDep emits_pU32 (fun _ =>
      emits_pDep (emits_pBytes 4) (fun _ => emits_pDep emits_pU32 (fun _ =>
        emits_pDep (emits_pBytes 52) (fun _ =>
          emits_pDep emits_pU32 (fun _ => emits_pU32))))))))

theorem emits_elst_core : Emits elst_core (fun t =>
    (t.1.1 ++ t.1.2) ++ (u32be t.2.1 ++
      (t.2.2.map fun e => u32be e.1 ++ (u32be e.2.1 ++ u32be e.2.2)).flatten)) :=
  emits_pDep emits_pVF (fun _ => emits_pDep emits_pU32 (fun count =>
    emits_pCount (emits_pDep emits_pU32 (fun _ =>
      emits_pDep emits_pU32 (fun _ => emits_pU32))) count))

theorem emits_mdhd_core : Emits mdhd_core (fun t =>
    (t.1.1 ++ t.1.2) ++ (u32be t.2.1 ++ (u32be t.2.2.1 ++ (u32be t.2.2.2.1 ++
      (u32be t.2.2.2.2.1 ++ (u16be t.2.2.2.2.2.1 ++ u16be t.2.2.2.2.2.2)))))) :=
  emits_pDep emits_pVF (fun _ => emits_pDep emits_pU32 (fun _ =>
    emits_pDep emits_pU32 (fun _ => emits_pDep emits_pU32 (fun _ =>
      emits_pDep emits_pU32 (fun _ => emits_pDep emits_pU16 (fun _ =>
        emits_pU16))))))

theorem emits_stco_core : Emits stco_core (fun t =>
    (t.1.1 ++ t.1.2) ++ (u32be t.2.1 ++ (t.2.2.map u32be).flatten)) :=
  emits_pDep emits_pVF (fun _ => emits_pDep emits_pU32 (fun num =>
    emits_pCount emits_pU32 num))

theorem emits_stsz_core : Emits stsz_core (fun t =>
    (t.1.1 ++ t.1.2) ++ (u32be t.2.1 ++ (u32be t.2.2.1 ++
      (t.2.2.2.map u32be).flatten))) :=
  emits_pDep emits_pVF (fun _ =>
    emits_pDep (emits_pGuard emits_pU32 (fun x => x == 0)) (fun _ =>
      emits_pDep emits_pU32 (fun num => emits_pCount emits_pU32 num)))

theorem emits_stsc_core : Emits stsc_core (fun t =>
    (t.1.1 ++ t.1.2) ++ (u32be t.2.1 ++
      (t.2.2.map fun e => u32be e.1 ++ (u32be e.2.1 ++ u32be e.2.2)).flatten)) :=
  emits_pDep emits_pVF (fun _ => emits_pDep emits_pU32 (fun num =>
    emits_pCount (emits_pDep emits_pU32 (fun _ =>
      emits_pDep emits_pU32 (fun _ => emits_pU32))) num))

theorem emits_stss_core : Emits stss_core (fun t =>
    (t.1.1 ++ t.1.2) ++ (u32be t.2.1 ++ (t.2.2.map u32be).flatten)) :=
  emits_pDep emits_pVF (fun _ => emits_pDep emits_pU32 (fun num =>
    emits_pCount emits_pU32 num))

theorem emits_stts_core : Emits stts_core (fun t =>
    (t.1.1 ++ t.1.2) ++ (u32be t.2.1 ++
      (t.2.2.map fun e => u32be e.1 ++ u32be e.2).flatten)) :=
  emits_pDep emits_pVF (fun _ => emits_pDep emits_pU32 (fun num =>
    emits_pCount (emits_pDep emits_pU32 (fun _ => emits_pU32)) num))

theorem slice_bytes (f : List Nat) (pos n : Nat) (hb : bytesOk f) :
    ∀ x ∈ slice f pos n, x < 256 :=
  fun x hx => hb x (mem_slice f pos n x hx)

theorem u32be_slice (f : List Nat) (pos : Nat) (hb : bytesOk f)
    (hle : pos + 4 ≤ f.length) :
    u32be (be32l (slice f pos 4)) = slice f pos 4 :=
  u32be_be32l _ (slice_length f pos 4 hle) (slice_bytes f pos 4 hb)

theorem u16be_slice (f : List Nat) (pos : Nat) (hb : bytesOk f)
    (hle : pos + 2 ≤ f.length) :
    u16be (be16l (slice f pos 2)) = slice f pos 2 :=
  u16be_be16l _ (slice_length f pos 2 hle) (slice_bytes f pos 2 hb)

theorem pGuard_eq_some {α : Type} {q : P α} {g : α → Bool} {f : List Nat}
    {p : Nat} {a : α} {p' : Nat} (h : pGuard q g f p = some (a, p')) :
    g a = true ∧ q f p = some (a, p') := by
  simp only [pGuard, Option.bind_eq_some] at h
  obtain ⟨⟨x, pm⟩, h1, h2⟩ := h
  split at h2
  · simp only [Option.some.injEq, Prod.mk.injEq] at h2
    obtain ⟨rfl, rfl⟩ := h2
    rename_i hg
    exact ⟨hg, h1⟩
  · exact absurd h2 (by simp)

/-- A sample description whose length-exactness flag is `true` emits
exactly the bytes it consumed: `unparse_stsd` re-derives the length
field as `18 + len(unparsed)`, which equals the declared length
precisely when the tail read was full and non-negative. -/
theorem emits_pDescOk :
    Emits (pGuard pDesc fun db => db.2) (fun db => wrDesc db.1) := by
  intro f p a p' hb h
  obtain ⟨hflag, h⟩ := pGuard_eq_some h
  simp only [pDesc, Option.bind_eq_some] at h
  obtain ⟨⟨len, p1⟩, hlen, ⟨fm, p2⟩, hfm, ⟨rs, p3⟩, hrs, ⟨ri, p4⟩, hri, h⟩ := h
  dsimp only at hfm hrs hri h
  split at h
  case isFalse => exact absurd h (by simp)
  rename_i hri0
  simp only [Option.map_eq_some'] at h
  obtain ⟨⟨up, p5⟩, hup, hval⟩ := h
  dsimp only at hup hval
  simp only [Prod.mk.injEq] at hval
  obtain ⟨hval1, rfl⟩ := hval
  subst hval1
  dsimp only at hflag
  simp only [decide_eq_true_eq] at hflag
  obtain ⟨rfl, rfl, hbd1⟩ := pU32_eq_some hlen
  obtain ⟨rfl, rfl⟩ := pBytes_eq_some hfm
  obtain ⟨rfl, rfl⟩ := pBytes_eq_some hrs
  obtain ⟨rfl, rfl, hbd4⟩ := pU16_eq_some hri
  by_cases hneg : ((be32l (slice f p 4) : Int) - 18) < 0
  · exfalso
    omega
  · simp only [pReadSigned, if_neg hneg] at hup
    have htn : ((be32l (slice f p 4) : Int) - 18).toNat =
        be32l (slice f p 4) - 18 := by omega
    rw [htn] at hup
    obtain ⟨rfl, rfl⟩ := pBytes_eq_some hup
    have hA := slice_len f (p + 4) 6
    have hB := slice_len f (p + 4 + (slice f (p + 4) 6).length) 6
    have hA6 : (slice f (p + 4) 6).length = 6 := by omega
    rw [hA6] at hB hbd4 hflag ⊢
    have hB6 : (slice f (p + 4 + 6) 6).length = 6 := by omega
    rw [hB6] at hbd4 hflag ⊢
    have hU := slice_len f (p + 4 + 6 + 6 + 2) (be32l (slice f p 4) - 18)
    have hup_len : (slice f (p + 4 + 6 + 6 + 2)
        (be32l (slice f p 4) - 18)).length = be32l (slice f p 4) - 18 := by
      omega
    refine ⟨?_, by omega, fun _ => by omega⟩
    show u32be (4 + 6 + 6 + 2 +
        (slice f (p + 4 + 6 + 6 + 2) (be32l (slice f p 4) - 18)).length) ++
        (slice f (p + 4) 6 ++ (slice f (p + 4 + 6) 6 ++
          (u16be (be16l (slice f (p + 4 + 6 + 6) 2)) ++
            slice f (p + 4 + 6 + 6 + 2) (be32l (slice f p 4) - 18)))) = _
    rw [hup_len]
    have h18 : 4 + 6 + 6 + 2 + (be32l (slice f p 4) - 18) =
        be32l (slice f p 4) := by omega
    rw [h18, u32be_slice f p hb (by omega), u16be_slice f (p + 4 + 6 + 6) hb
      (by omega)]
    have e1 : p + 4 + 6 + 6 + 2 + (be32l (slice f p 4) - 18) - p =
        4 + (6 + (6 + (2 + (be32l (slice f p 4) - 18)))) := by omega
    rw [e1, slice_split f p 4, slice_split f (p + 4) 6,
      slice_split f (p + 4 + 6) 6, slice_split f (p + 4 + 6 + 6) 2]

/-- A counted parse whose elements all pass a guard is also a counted
parse of the guarded parser. -/
theorem pCount_guard_of_all {α : Type} (q : P α) (g : α → Bool) :
    ∀ (n : Nat) (f : List Nat) (p : Nat) (l : List α) (p' : Nat),
      pCount q n f p = some (l, p') → l.all g = true →
      pCount (pGuard q g) n f p = some (l, p') := by
  intro n
  induction n with
  | zero =>
    intro f p l p' h _
    simpa [pCount] using h
  | succ m ih =>
    intro f p l p' h hall
    simp only [pCount, Option.bind_eq_some, Option.map_eq_some'] at h
    obtain ⟨⟨x, pm⟩, h1, ⟨xs, pe⟩, h2, hval⟩ := h
    simp only [Prod.mk.injEq] at hval
    obtain ⟨rfl, rfl⟩ := hval
    simp only [List.all_cons, Bool.and_eq_true] at hall
    simp only [pCount, Option.bind_eq_some, Option.map_eq_some']
    refine ⟨(x, pm), ?_, (xs, pe), ih f pm xs pe h2 hall.2, rfl⟩
    simp only [pGuard, h1, Option.some_bind]
    rw [if_pos hall.1]

/-- A successful `stsd_core` parse whose descriptions are all
length-exact is also a successful `stsd_core_ok` parse. -/
theorem stsd_core_ok_of {f : List Nat} {p : Nat}
    {t : (List Nat × List Nat) × Nat × List (SampleDescription × Bool)}
    {p' : Nat} (h : stsd_core f p = some (t, p'))
    (hall : (t.2.2.all fun db => db.2) = true) :
    stsd_core_ok f p = some (t, p') := by
  simp only [stsd_core, pDep, Option.bind_eq_some, Option.map_eq_some'] at h
  obtain ⟨ap, ha, bp, ⟨np, hn, lp, hlp, hbp⟩, hval⟩ := h
  subst hbp
  simp only [Prod.mk.injEq] at hval
  obtain ⟨rfl, rfl⟩ := hval
  simp only [stsd_core_ok, pDep, Option.bind_eq_some, Option.map_eq_some']
  exact ⟨ap, ha, ((np.1, lp.1), lp.2),
    ⟨np, hn, lp,
      pCount_guard_of_all pDesc (fun db => db.2) np.1 f np.2 lp.1 lp.2 hlp
        hall, rfl⟩, rfl⟩

theorem emits_stsd_core_ok : Emits stsd_core_ok (fun t =>
    (t.1.1 ++ t.1.2) ++ (u32be t.2.1 ++
      ((t.2.2.map fun db => wrDesc db.1).flatten))) :=
  emits_pDep emits_pVF (fun _ => emits_pDep emits_pU32 (fun num =>
    emits_pCount emits_pDescOk num))

theorem pCount_length {α : Type} (q : P α) :
    ∀ (n : Nat) (f : List Nat) (p : Nat) (l : List α) (p' : Nat),
      pCount q n f p = some (l, p') → l.length = n := by
  intro n
  induction n with
  | zero =>
    intro f p l p' h
    simp only [pCount, Option.some.injEq, Prod.mk.injEq] at h
    rw [← h.1]
    rfl
  | succ m ih =>
    intro f p l p' h
    simp only [pCount, Option.bind_eq_some, Option.map_eq_some'] at h
    obtain ⟨⟨x, pm⟩, _, ⟨xs, pe⟩, h2, hval⟩ := h
    simp only [Prod.mk.injEq] at hval
    obtain ⟨rfl, rfl⟩ := hval
    simp only [List.length_cons, ih f pm xs pe h2]

/-- The `num`-prefixed table parsers produce exactly `num` entries, so
the serializers — which write `len(table)` back — reproduce the count
field. -/
theorem countCore_length {α : Type} (q : P α) {f : List Nat} {p : Nat}
    {t : (List Nat × List Nat) × Nat × List α} {p' : Nat}
    (h : pDep pVF (fun _ => pDep pU32 fun num => pCount q num) f p
      = some (t, p')) :
    t.2.2.length = t.2.1 := by
  simp only [pDep, Option.bind_eq_some, Option.map_eq_some'] at h
  obtain ⟨ap, _, bp, ⟨np, _, lp, hlp, hbp⟩, hval⟩ := h
  subst hbp
  simp only [Prod.mk.injEq] at hval
  obtain ⟨rfl, rfl⟩ := hval
  exact pCount_length q np.1 f np.2 lp.1 lp.2 hlp

/-- The fixed `sample_size` accepted by `parse_stsz` is 0, and the
sample-size table has exactly the declared number of entries. -/
theorem stsz_core_facts {f : List Nat} {p : Nat}
    {t : (List Nat × List Nat) × Nat × Nat × List Nat} {p' : Nat}
    (h : stsz_core f p = some (t, p')) :
    t.2.1 = 0 ∧ t.2.2.2.length = t.2.2.1 := by
  simp only [stsz_core, pDep, Option.bind_eq_some, Option.map_eq_some'] at h
  obtain ⟨ap, _, bp, ⟨gp, hg, cp, ⟨np, _, lp, hlp, hcp⟩, hbp⟩, hval⟩ := h
  subst hcp
  subst hbp
  simp only [Prod.mk.injEq] at hval
  obtain ⟨rfl, rfl⟩ := hval
  obtain ⟨hg0, _⟩ := pGuard_eq_some hg
  exact ⟨by simpa using hg0, pCount_length pU32 np.1 f np.2 lp.1 lp.2 hlp⟩

/-- The count accepted by `parse_dref` is 1, and exactly that many data
references are parsed. -/
theorem dref_core_facts {f : List Nat} {p : Nat}
    {t : (List Nat × List Nat) × Nat × List DataReference} {p' : Nat}
    (h : dref_core f p = some (t, p')) :
    t.2.1 = 1 ∧ t.2.2.length = 1 := by
  simp only [dref_core, pDep, Option.bind_eq_some, Option.map_eq_some'] at h
  obtain ⟨ap, _, bp, ⟨np, hg, lp, hlp, hbp⟩, hval⟩ := h
  subst hbp
  simp only [Prod.mk.injEq] at hval
  obtain ⟨rfl, rfl⟩ := hval
  obtain ⟨hg1, _⟩ := pGuard_eq_some hg
  have hn : np.1 = 1 := by simpa using hg1
  have hl := pCount_length pRef np.1 f np.2 lp.1 lp.2 hlp
  exact ⟨hn, by rw [hl, hn]⟩

/-- The generic typed-leaf round trip: if the core parser consumed the
payload of the atom at `pos` exactly (the `ar.done()` check), then the
written atom — length prefix, type code, payload — is byte-identical to
the atom's range in the file. -/
theorem leaf_rt_general {α : Type} {core : P α} {w : α → List Nat}
    (hw : Emits core w) (T : List Nat) (hT : T.length = 4)
    {f : List Nat} {pos size : Nat} {t : α}
    (hb : bytesOk f) (hpos : pos + 8 ≤ f.length)
    (hsz : be32l (slice f pos 4) = size) (hty : slice f (pos + 4) 4 = T)
    (hcore : core f (pos + 8) = some (t, pos + size)) :
    atomBytes T (w t) = slice f pos size ∧
      (atomBytes T (w t)).length = size := by
  obtain ⟨e, l, u⟩ := hw f (pos + 8) t (pos + size) hb hcore
  have h8 : 8 ≤ size := by omega
  have hend : pos + size ≤ f.length := u hpos
  have hsub : pos + size - (pos + 8) = size - 8 := by omega
  rw [hsub] at e
  have hwl : (w t).length = size - 8 := by
    rw [e]; exact slice_length f (pos + 8) (size - 8) (by omega)
  have hlenT : (T ++ w t).length = 4 + (size - 8) := by
    simp [hT, hwl]
  have hsplit : slice f pos (4 + (4 + (size - 8))) =
      slice f pos 4 ++ (slice f (pos + 4) 4 ++ slice f (pos + 4 + 4) (size - 8)) := by
    rw [slice_split f pos 4, slice_split f (pos + 4) 4]
  have e44 : pos + 4 + 4 = pos + 8 := by omega
  rw [e44] at hsplit
  have esz : 4 + (4 + (size - 8)) = size := by omega
  rw [esz] at hsplit
  constructor
  · show u32be (4 + (T ++ w t).length) ++ T ++ w t = slice f pos size
    rw [hlenT]
    have esz2 : 4 + (4 + (size - 8)) = size := by omega
    have hu : u32be size = slice f pos 4 := by
      rw [← hsz]; exact u32be_slice f pos hb (by omega)
    rw [esz2, hu, hsplit, hty, ← e, List.append_assoc]
  · show (u32be (4 + (T ++ w t).length) ++ T ++ w t).length = size
    simp only [List.length_append, hT, hwl, hlenT, u32be, List.length_cons,
      List.length_nil]
    omega

theorem mvhd_rt {f : List Nat} {pos size : Nat} {v : AtomVal}
    (hb : bytesOk f) (hpos : pos + 8 ≤ f.length)
    (hsz : be32l (slice f pos 4) = size) (hty : slice f (pos + 4) 4 = mvhdT)
    (h : parse_mvhd_at f pos size = some v) :
    writeAtom f v = slice f pos size ∧ (writeAtom f v).length = size := by
  simp only [parse_mvhd_at, Option.bind_eq_some] at h
  obtain ⟨tp, hcore, hif⟩ := h
  split at hif
  case isFalse => exact absurd hif (by simp)
  rename_i hpe
  simp only [Option.some.injEq] at hif
  subst hif
  have hcore' : mvhd_core f (pos + 8) = some (tp.1, pos + size) := by
    rw [← hpe]; exact hcore
  obtain ⟨hbytes, hlen⟩ :=
    leaf_rt_general emits_mvhd_core mvhdT rfl hb hpos hsz hty hcore'
  have hw : writeAtom f (AtomVal.mvhd tp.1.1.1 tp.1.1.2 tp.1.2.1 tp.1.2.2.1
      tp.1.2.2.2.1 tp.1.2.2.2.2.1 tp.1.2.2.2.2.2) =
      atomBytes mvhdT ((tp.1.1.1 ++ tp.1.1.2) ++ (u32be tp.1.2.1 ++
        (u32be tp.1.2.2.1 ++ (u32be tp.1.2.2.2.1 ++
          (u32be tp.1.2.2.2.2.1 ++ tp.1.2.2.2.2.2))))) := by
    simp only [writeAtom, unparse_mvhd, atomBytes, List.append_assoc]
  exact ⟨hw.trans hbytes, by rw [hw]; exact hlen⟩

theorem tkhd_rt {f : List Nat} {pos size : Nat} {v : AtomVal}
    (hb : bytesOk f) (hpos : pos + 8 ≤ f.length)
    (hsz : be32l (slice f pos 4) = size) (hty : slice f (pos + 4) 4 = tkhdT)
    (h : parse_tkhd_at f pos size = some v) :
    writeAtom f v = slice f pos size ∧ (writeAtom f v).length = size := by
  simp only [parse_tkhd_at, Option.bind_eq_some] at h
  obtain ⟨tp, hcore, hif⟩ := h
  split at hif
  case isFalse => exact absurd hif (by simp)
  rename_i hpe
  simp only [Option.some.injEq] at hif
  subst hif
  have hcore' : tkhd_core f (pos + 8) = some (tp.1, pos + size) := by
    rw [← hpe]; exact hcore
  obtain ⟨hbytes, hlen⟩ :=
    leaf_rt_general emits_tkhd_core tkhdT rfl hb hpos hsz hty hcore'
  have hw : writeAtom f (AtomVal.tkhd tp.1.1.1 tp.1.1.2 tp.1.2.1 tp.1.2.2.1
      tp.1.2.2.2.1 tp.1.2.2.2.2.1 tp.1.2.2.2.2.2.1 tp.1.2.2.2.2.2.2.1
      tp.1.2.2.2.2.2.2.2.1 tp.1.2.2.2.2.2.2.2.2) =
      atomBytes tkhdT ((tp.1.1.1 ++ tp.1.1.2) ++ (u32be tp.1.2.1 ++
        (u32be tp.1.2.2.1 ++ (u32be tp.1.2.2.2.1 ++ (tp.1.2.2.2.2.1 ++
          (u32be tp.1.2.2.2.2.2.1 ++ (tp.1.2.2.2.2.2.2.1 ++
            (u32be tp.1.2.2.2.2.2.2.2.1 ++ u32be tp.1.2.2.2.2.2.2.2.2)))))))) := by
    simp only [writeAtom, unparse_tkhd, atomBytes, List.append_assoc]
  exact ⟨hw.trans hbytes, by rw [hw]; exact hlen⟩

theorem elst_rt {f : List Nat} {pos size : Nat} {v : AtomVal}
    (hb : bytesOk f) (hpos : pos + 8 ≤ f.length)
    (hsz : be32l (slice f pos 4) = size) (hty : slice f (pos + 4) 4 = elstT)
    (h : parse_elst_at f pos size = some v) :
    writeAtom f v = slice f pos size ∧ (writeAtom f v).length = size := by
  simp only [parse_elst_at, Option.bind_eq_some] at h
  obtain ⟨tp, hcore, hif⟩ := h
  split at hif
  case isFalse => exact absurd hif (by simp)
  rename_i hpe
  simp only [Option.some.injEq] at hif
  subst hif
  have hcore' : elst_core f (pos + 8) = some (tp.1, pos + size) := by
    rw [← hpe]; exact hcore
  have hcnt : tp.1.2.2.length = tp.1.2.1 := countCore_length _ hcore'
  obtain ⟨hbytes, hlen⟩ :=
    leaf_rt_general emits_elst_core elstT rfl hb hpos hsz hty hcore'
  have hw : writeAtom f (AtomVal.elst tp.1.1.1 tp.1.1.2 tp.1.2.2) =
      atomBytes elstT ((tp.1.1.1 ++ tp.1.1.2) ++ (u32be tp.1.2.1 ++
        (tp.1.2.2.map fun e =>
          u32be e.1 ++ (u32be e.2.1 ++ u32be e.2.2)).flatten)) := by
    simp only [writeAtom, unparse_elst, atomBytes, hcnt, List.append_assoc]
  exact ⟨hw.trans hbytes, by rw [hw]; exact hlen⟩

theorem mdhd_rt {f : List Nat} {pos size : Nat} {v : AtomVal}
    (hb : bytesOk f) (hpos : pos + 8 ≤ f.length)
    (hsz : be32l (slice f pos 4) = size) (hty : slice f (pos + 4) 4 = mdhdT)
    (h : parse_mdhd_at f pos size = some v) :
    writeAtom f v = slice f pos size ∧ (writeAtom f v).length = size := by
  simp only [parse_mdhd_at, Option.bind_eq_some] at h
  obtain ⟨tp, hcore, hif⟩ := h
  split at hif
  case isFalse => exact absurd hif (by simp)
  rename_i hpe
  simp only [Option.some.injEq] at hif
  subst hif
  have hcore' : mdhd_core f (pos + 8) = some (tp.1, pos + size) := by
    rw [← hpe]; exact hcore
  obtain ⟨hbytes, hlen⟩ :=
    leaf_rt_general emits_mdhd_core mdhdT rfl hb hpos hsz hty hcore'
  have hw : writeAtom f (AtomVal.mdhd tp.1.1.1 tp.1.1.2 tp.1.2.1 tp.1.2.2.1
      tp.1.2.2.2.1 tp.1.2.2.2.2.1 tp.1.2.2.2.2.2.1 tp.1.2.2.2.2.2.2) =
      atomBytes mdhdT ((tp.1.1.1 ++ tp.1.1.2) ++ (u32be tp.1.2.1 ++
        (u32be tp.1.2.2.1 ++ (u32be tp.1.2.2.2.1 ++ (u32be tp.1.2.2.2.2.1 ++
          (u16be tp.1.2.2.2.2.2.1 ++ u16be tp.1.2.2.2.2.2.2)))))) := by
    simp only [writeAtom, unparse_mdhd, atomBytes, List.append_assoc]
  exact ⟨hw.trans hbytes, by rw [hw]; exact hlen⟩

theorem stco_rt {f : List Nat} {pos size : Nat} {v : AtomVal}
    (hb : bytesOk f) (hpos : pos + 8 ≤ f.length)
    (hsz : be32l (slice f pos 4) = size) (hty : slice f (pos + 4) 4 = stcoT)
    (h : parse_stco_at f pos size = some v) :
    writeAtom f v = slice f pos size ∧ (writeAtom f v).length = size := by
  simp only [parse_stco_at, Option.bind_eq_some] at h
  obtain ⟨tp, hcore, hif⟩ := h
  split at hif
  case isFalse => exact absurd hif (by simp)
  rename_i hpe
  simp only [Option.some.injEq] at hif
  subst hif
  have hcore' : stco_core f (pos + 8) = some (tp.1, pos + size) := by
    rw [← hpe]; exact hcore
  have hcnt : tp.1.2.2.length = tp.1.2.1 := countCore_length _ hcore'
  obtain ⟨hbytes, hlen⟩ :=
    leaf_rt_general emits_stco_core stcoT rfl hb hpos hsz hty hcore'
  have hw : writeAtom f (AtomVal.stco tp.1.1.1 tp.1.1.2 tp.1.2.2) =
      atomBytes stcoT ((tp.1.1.1 ++ tp.1.1.2) ++ (u32be tp.1.2.1 ++
        (tp.1.2.2.map u32be).flatten)) := by
    simp only [writeAtom, unparse_stco, atomBytes, hcnt, List.append_assoc]
  exact ⟨hw.trans hbytes, by rw [hw]; exact hlen⟩

theorem stsz_rt {f : List Nat} {pos size : Nat} {v : AtomVal}
    (hb : bytesOk f) (hpos : pos + 8 ≤ f.length)
    (hsz : be32l (slice f pos 4) = size) (hty : slice f (pos + 4) 4 = stszT)
    (h : parse_stsz_at f pos size = some v) :
    writeAtom f v = slice f pos size ∧ (writeAtom f v).length = size := by
  simp only [parse_stsz_at, Option.bind_eq_some] at h
  obtain ⟨tp, hcore, hif⟩ := h
  split at hif
  case isFalse => exact absurd hif (by simp)
  rename_i hpe
  simp only [Option.some.injEq] at hif
  subst hif
  have hcore' : stsz_core f (pos + 8) = some (tp.1, pos + size) := by
    rw [← hpe]; exact hcore
  obtain ⟨hzero, hcnt⟩ := stsz_core_facts hcore'
  obtain ⟨hbytes, hlen⟩ :=
    leaf_rt_general emits_stsz_core stszT rfl hb hpos hsz hty hcore'
  have hw : writeAtom f (AtomVal.stsz tp.1.1.1 tp.1.1.2 tp.1.2.2.2) =
      atomBytes stszT ((tp.1.1.1 ++ tp.1.1.2) ++ (u32be tp.1.2.1 ++
        (u32be tp.1.2.2.1 ++ (tp.1.2.2.2.map u32be).flatten))) := by
    simp only [writeAtom, unparse_stsz, atomBytes, hzero, hcnt,
      List.append_assoc]
  exact ⟨hw.trans hbytes, by rw [hw]; exact hlen⟩

theorem stsc_rt {f : List Nat} {pos size : Nat} {v : AtomVal}
    (hb : bytesOk f) (hpos : pos + 8 ≤ f.length)
    (hsz : be32l (slice f pos 4) = size) (hty : slice f (pos + 4) 4 = stscT)
    (h : parse_stsc_at f pos size = some v) :
    writeAtom f v = slice f pos size ∧ (writeAtom f v).length = size := by
  simp only [parse_stsc_at, Option.bind_eq_some] at h
  obtain ⟨tp, hcore, hif⟩ := h
  split at hif
  case isFalse => exact absurd hif (by simp)
  rename_i hpe
  simp only [Option.some.injEq] at hif
  subst hif
  have hcore' : stsc_core f (pos + 8) = some (tp.1, pos + size) := by
    rw [← hpe]; exact hcore
  have hcnt : tp.1.2.2.length = tp.1.2.1 := countCore_length _ hcore'
  obtain ⟨hbytes, hlen⟩ :=
    leaf_rt_general emits_stsc_core stscT rfl hb hpos hsz hty hcore'
  have hw : writeAtom f (AtomVal.stsc tp.1.1.1 tp.1.1.2 tp.1.2.2) =
      atomBytes stscT ((tp.1.1.1 ++ tp.1.1.2) ++ (u32be tp.1.2.1 ++
        (tp.1.2.2.map fun e =>
          u32be e.1 ++ (u32be e.2.1 ++ u32be e.2.2)).flatten)) := by
    simp only [writeAtom, unparse_stsc, atomBytes, hcnt, List.append_assoc]
  exact ⟨hw.trans hbytes, by rw [hw]; exact hlen⟩

theorem stss_rt {f : List Nat} {pos size : Nat} {v : AtomVal}
    (hb : bytesOk f) (hpos : pos + 8 ≤ f.length)
    (hsz : be32l (slice f pos 4) = size) (hty : slice f (pos + 4) 4 = stssT)
    (h : parse_stss_at f pos size = some v) :
    writeAtom f v = slice f pos size ∧ (writeAtom f v).length = size := by
  simp only [parse_stss_at, Option.bind_eq_some] at h
  obtain ⟨tp, hcore, hif⟩ := h
  split at hif
  case isFalse => exact absurd hif (by simp)
  rename_i hpe
  simp only [Option.some.injEq] at hif
  subst hif
  have hcore' : stss_core f (pos + 8) = some (tp.1, pos + size) := by
    rw [← hpe]; exact hcore
  have hcnt : tp.1.2.2.length = tp.1.2.1 := countCore_length _ hcore'
  obtain ⟨hbytes, hlen⟩ :=
    leaf_rt_general emits_stss_core stssT rfl hb hpos hsz hty hcore'
  have hw : writeAtom f (AtomVal.stss tp.1.1.1 tp.1.1.2 tp.1.2.2) =
      atomBytes stssT ((tp.1.1.1 ++ tp.1.1.2) ++ (u32be tp.1.2.1 ++
        (tp.1.2.2.map u32be).flatten)) := by
    simp only [writeAtom, unparse_stss, atomBytes, hcnt, List.append_assoc]
  exact ⟨hw.trans hbytes, by rw [hw]; exact hlen⟩

theorem stts_rt {f : List Nat} {pos size : Nat} {v : AtomVal}
    (hb : bytesOk f) (hpos : pos + 8 ≤ f.length)
    (hsz : be32l (slice f pos 4) = size) (hty : slice f (pos + 4) 4 = sttsT)
    (h : parse_stts_at f pos size = some v) :
    writeAtom f v = slice f pos size ∧ (writeAtom f v).length = size := by
  simp only [parse_stts_at, Option.bind_eq_some] at h
  obtain ⟨tp, hcore, hif⟩ := h
  split at hif
  case isFalse => exact absurd hif (by simp)
  rename_i hpe
  simp only [Option.some.injEq] at hif
  subst hif
  have hcore' : stts_core f (pos + 8) = some (tp.1, pos + size) := by
    rw [← hpe]; exact hcore
  have hcnt : tp.1.2.2.length = tp.1.2.1 := countCore_length _ hcore'
  obtain ⟨hbytes, hlen⟩ :=
    leaf_rt_general emits_stts_core sttsT rfl hb hpos hsz hty hcore'
  have hw : writeAtom f (AtomVal.stts tp.1.1.1 tp.1.1.2 tp.1.2.2) =
      atomBytes sttsT ((tp.1.1.1 ++ tp.1.1.2) ++ (u32be tp.1.2.1 ++
        (tp.1.2.2.map fun e => u32be e.1 ++ u32be e.2).flatten)) := by
    simp only [writeAtom, unparse_stts, atomBytes, hcnt, List.append_assoc]
  exact ⟨hw.trans hbytes, by rw [hw]; exact hlen⟩

theorem stsd_rt {f : List Nat} {pos size : Nat} {v : AtomVal}
    (hb : bytesOk f) (hpos : pos + 8 ≤ f.length)
    (hsz : be32l (slice f pos 4) = size) (hty : slice f (pos + 4) 4 = stsdT)
    (h : parse_stsd_at f pos size = some (v, true)) :
    writeAtom f v = slice f pos size ∧ (writeAtom f v).length = size := by
  simp only [parse_stsd_at, Option.bind_eq_some] at h
  obtain ⟨tp, hcore, hif⟩ := h
  split at hif
  case isFalse => exact absurd hif (by simp)
  rename_i hpe
  simp only [Option.some.injEq, Prod.mk.injEq] at hif
  obtain ⟨rfl, hall⟩ := hif
  have hcore' : stsd_core f (pos + 8) = some (tp.1, pos + size) := by
    rw [← hpe]; exact hcore
  have hcnt : tp.1.2.2.length = tp.1.2.1 := countCore_length _ hcore'
  have hok := stsd_core_ok_of hcore' hall
  obtain ⟨hbytes, hlen⟩ :=
    leaf_rt_general emits_stsd_core_ok stsdT rfl hb hpos hsz hty hok
  have hw : writeAtom f
      (AtomVal.stsd tp.1.1.1 tp.1.1.2 (tp.1.2.2.map Prod.fst)) =
      atomBytes stsdT ((tp.1.1.1 ++ tp.1.1.2) ++ (u32be tp.1.2.1 ++
        ((tp.1.2.2.map fun db => wrDesc db.1).flatten))) := by
    simp only [writeAtom, unparse_stsd, atomBytes, List.length_map, hcnt,
      List.map_map, Function.comp_def, List.append_assoc]
  exact ⟨hw.trans hbytes, by rw [hw]; exact hlen⟩

theorem odInsert_fresh (acc : List (List Nat × AtomVal)) (k : List Nat)
    (v : AtomVal) (hk : ¬ k ∈ acc.map Prod.fst) :
    odInsert acc k v = acc ++ [(k, v)] := by
  unfold odInsert
  rw [if_neg]
  simp only [List.any_eq_true, not_exists, not_and]
  intro p hp
  intro hpk
  have hpk' : p.1 = k := of_decide_eq_true hpk
  exact hk (hpk' ▸ List.mem_map_of_mem Prod.fst hp)

theorem collapse_aux (seq : List (List Nat × AtomVal)) :
    ∀ acc, ((acc ++ seq).map Prod.fst).Nodup →
      seq.foldl (fun a kv => odInsert a kv.1 kv.2) acc = acc ++ seq := by
  induction seq with
  | nil =>
    intro acc _
    simp
  | cons kv rest ih =>
    intro acc hnd
    simp only [List.foldl_cons]
    have hk : ¬ kv.1 ∈ acc.map Prod.fst := by
      simp only [List.map_append, List.nodup_append] at hnd
      intro hmem
      exact hnd.2.2 hmem (by simp)
    rw [odInsert_fresh acc kv.1 kv.2 hk]
    have hres := ih (acc ++ [kv]) (by simpa using hnd)
    rw [hres]
    simp

/-- When no two children share a type code, the `OrderedDict` collapse is
the identity on the parsed sequence. -/
theorem collapseOD_nodup (seq : List (List Nat × AtomVal))
    (h : (seq.map Prod.fst).Nodup) : collapseOD seq = seq := by
  simpa using collapse_aux seq [] (by simpa using h)

/-- Byte-assembly of a written container atom: length prefix, type,
container header, children image. -/
theorem container_assemble {f : List Nat} {pos size : Nat}
    (T hdr kidsB : List Nat) (hb : bytesOk f)
    (hsz : be32l (slice f pos 4) = size)
    (hT : slice f (pos + 4) 4 = T)
    (hhdr : slice f (pos + 8) hdr.length = hdr)
    (hkids : kidsB = slice f (pos + 8 + hdr.length) (size - (8 + hdr.length)))
    (hklen : kidsB.length = size - (8 + hdr.length))
    (h8 : 8 + hdr.length ≤ size) (hend : pos + size ≤ f.length) :
    u32be ((T ++ hdr ++ kidsB).length + 4) ++ (T ++ hdr ++ kidsB) =
        slice f pos size ∧
      (u32be ((T ++ hdr ++ kidsB).length + 4) ++ (T ++ hdr ++ kidsB)).length
        = size := by
  have hTl : T.length = 4 := by
    rw [← hT]; exact slice_length f (pos + 4) 4 (by omega)
  have hbody : (T ++ hdr ++ kidsB).length = 4 + hdr.length +
      (size - (8 + hdr.length)) := by
    simp only [List.length_append, hTl, hklen]
  have hlen4 : (T ++ hdr ++ kidsB).length + 4 = size := by omega
  have hu : u32be size = slice f pos 4 := by
    rw [← hsz]; exact u32be_slice f pos hb (by omega)
  have hsplit : slice f pos (4 + (4 + (hdr.length + (size - (8 + hdr.length))))) =
      slice f pos 4 ++ (slice f (pos + 4) 4 ++ (slice f (pos + 4 + 4) hdr.length ++
        slice f (pos + 4 + 4 + hdr.length) (size - (8 + hdr.length)))) := by
    rw [slice_split f pos 4, slice_split f (pos + 4) 4,
      slice_split f (pos + 4 + 4) hdr.length]
  have e44 : pos + 4 + 4 = pos + 8 := by omega
  rw [e44] at hsplit
  have e44b : pos + 8 + hdr.length = pos + 4 + 4 + hdr.length := by omega
  rw [← e44b] at hsplit
  have esz : 4 + (4 + (hdr.length + (size - (8 + hdr.length)))) = size := by
    omega
  rw [esz] at hsplit
  constructor
  · rw [hlen4, hu, hsplit, hT, hhdr, hkids, List.append_assoc]
  · simp only [List.length_append, u32be, List.length_cons, List.length_nil]
    omega

theorem atomRT_of_childrenRT (fl : Nat) (hch : ChildrenRT fl) : AtomRT fl := by
  intro f pos v sz hb hp hle
  simp only [parseAtomAt, parseAtomWith, Option.bind_eq_some] at hp
  obtain ⟨⟨szv, szp⟩, hszb, ⟨tyb1, tyb2⟩, htyb, hp⟩ := hp
  obtain ⟨rfl, rfl, hbd1⟩ := pU32_eq_some hszb
  obtain ⟨rfl, rfl⟩ := pBytes_eq_some htyb
  have hT4 : ∀ T : List Nat, slice f (pos + 4) 4 = T → T.length = 4 →
      pos + 8 ≤ f.length := by
    intro T hT hTl
    have hsl := slice_len f (pos + 4) 4
    rw [hT, hTl] at hsl
    omega
  by_cases h1 : slice f (pos + 4) 4 = mvhdT
  · rw [if_pos h1] at hp
    simp only [Option.map_eq_some'] at hp
    obtain ⟨w, hw, hval⟩ := hp
    simp only [Prod.mk.injEq] at hval
    obtain ⟨rfl, rfl, -⟩ := hval
    exact mvhd_rt hb (hT4 _ h1 rfl) rfl h1 hw
  rw [if_neg h1] at hp
  by_cases h2 : slice f (pos + 4) 4 = tkhdT
  · rw [if_pos h2] at hp
    simp only [Option.map_eq_some'] at hp
    obtain ⟨w, hw, hval⟩ := hp
    simp only [Prod.mk.injEq] at hval
    obtain ⟨rfl, rfl, -⟩ := hval
    exact tkhd_rt hb (hT4 _ h2 rfl) rfl h2 hw
  rw [if_neg h2] at hp
  by_cases h3 : slice f (pos + 4) 4 = elstT
  · rw [if_pos h3] at hp
    simp only [Option.map_eq_some'] at hp
    obtain ⟨w, hw, hval⟩ := hp
    simp only [Prod.mk.injEq] at hval
    obtain ⟨rfl, rfl, -⟩ := hval
    exact elst_rt hb (hT4 _ h3 rfl) rfl h3 hw
  rw [if_neg h3] at hp
  by_cases h4 : slice f (pos + 4) 4 = mdhdT
  · rw [if_pos h4] at hp
    simp only [Option.map_eq_some'] at hp
    obtain ⟨w, hw, hval⟩ := hp
    simp only [Prod.mk.injEq] at hval
    obtain ⟨rfl, rfl, -⟩ := hval
    exact mdhd_rt hb (hT4 _ h4 rfl) rfl h4 hw
  rw [if_neg h4] at hp
  by_cases h5 : slice f (pos + 4) 4 = stcoT
  · rw [if_pos h5] at hp
    simp only [Option.map_eq_some'] at hp
    obtain ⟨w, hw, hval⟩ := hp
    simp only [Prod.mk.injEq] at hval
    obtain ⟨rfl, rfl, -⟩ := hval
    exact stco_rt hb (hT4 _ h5 rfl) rfl h5 hw
  rw [if_neg h5] at hp
  by_cases h6 : slice f (pos + 4) 4 = stszT
  · rw [if_pos h6] at hp
    simp only [Option.map_eq_some'] at hp
    obtain ⟨w, hw, hval⟩ := hp
    simp only [Prod.mk.injEq] at hval
    obtain ⟨rfl, rfl, -⟩ := hval
    exact stsz_rt hb (hT4 _ h6 rfl) rfl h6 hw
  rw [if_neg h6] at hp
  by_cases h7 : slice f (pos + 4) 4 = stscT
  · rw [if_pos h7] at hp
    simp only [Option.map_eq_some'] at hp
    obtain ⟨w, hw, hval⟩ := hp
    simp only [Prod.mk.injEq] at hval
    obtain ⟨rfl, rfl, -⟩ := hval
    exact stsc_rt hb (hT4 _ h7 rfl) rfl h7 hw
  rw [if_neg h7] at hp
  by_cases h8 : slice f (pos + 4) 4 = stssT
  · rw [if_pos h8] at hp
    simp only [Option.map_eq_some'] at hp
    obtain ⟨w, hw, hval⟩ := hp
    simp only [Prod.mk.injEq] at hval
    obtain ⟨rfl, rfl, -⟩ := hval
    exact stss_rt hb (hT4 _ h8 rfl) rfl h8 hw
  rw [if_neg h8] at hp
  by_cases h9 : slice f (pos + 4) 4 = sttsT
  · rw [if_pos h9] at hp
    simp only [Option.map_eq_some'] at hp
    obtain ⟨w, hw, hval⟩ := hp
    simp only [Prod.mk.injEq] at hval
    obtain ⟨rfl, rfl, -⟩ := hval
    exact stts_rt hb (hT4 _ h9 rfl) rfl h9 hw
  rw [if_neg h9] at hp
  by_cases h10 : slice f (pos + 4) 4 = stsdT
  · rw [if_pos h10] at hp
    simp only [Option.map_eq_some'] at hp
    obtain ⟨vb, hvb, hval⟩ := hp
    simp only [Prod.mk.injEq] at hval
    obtain ⟨rfl, rfl, hfl⟩ := hval
    have hvb' : parse_stsd_at f pos (be32l (slice f pos 4)) =
        some (vb.1, true) := by
      rw [← hfl]
      exact hvb
    exact stsd_rt hb (hT4 _ h10 rfl) rfl h10 hvb'
  rw [if_neg h10] at hp
  by_cases h11 : slice f (pos + 4) 4 = drefT
  · -- dref: parsed by parse_dref, but written through the byte-copy
    -- branch of write_atom
    rw [if_pos h11] at hp
    simp only [Option.map_eq_some'] at hp
    obtain ⟨w, hw, hval⟩ := hp
    simp only [Prod.mk.injEq] at hval
    obtain ⟨rfl, rfl, -⟩ := hval
    simp only [parse_dref_at, Option.bind_eq_some] at hw
    obtain ⟨tp, -, hif⟩ := hw
    by_cases hpe : tp.2 = pos + be32l (slice f pos 4)
    · rw [if_pos hpe] at hif
      simp only [Option.some.injEq] at hif
      subst hif
      refine ⟨by simp [writeAtom], ?_⟩
      simp only [writeAtom]
      exact slice_length f pos _ hle
    · rw [if_neg hpe] at hif
      exact absurd hif (by simp)
  rw [if_neg h11] at hp
  by_cases h12 : slice f (pos + 4) 4 ∈ containerTypes
  · -- container atoms
    rw [if_pos h12] at hp
    simp only [Option.bind_eq_some] at hp
    obtain ⟨⟨hdr, off0⟩, hhp, ⟨sq, fin, flag⟩, hsq, hif⟩ := hp
    by_cases hfin : fin = pos + be32l (slice f pos 4)
    case neg => rw [if_neg hfin] at hif; exact absurd hif (by simp)
    rw [if_pos hfin] at hif
    simp only [Option.some.injEq, Prod.mk.injEq] at hif
    obtain ⟨rfl, rfl, hflag⟩ := hif
    rw [Bool.and_eq_true] at hflag
    obtain ⟨hflag1, hnodup⟩ := hflag
    have hnd : (sq.map Prod.fst).Nodup := of_decide_eq_true hnodup
    subst hflag1
    subst hfin
    obtain ⟨hkidsB, hoff, hklen⟩ := hch f off0 (pos + be32l (slice f pos 4)) sq
      (pos + be32l (slice f pos 4)) hb hsq hle
    by_cases hmeta : slice f (pos + 4) 4 = metaT
    · -- the container 'meta' with its 4-byte header (a header read that
      -- reaches end of file is short, like any other read)
      rw [if_pos hmeta] at hhp
      obtain ⟨rfl, rfl⟩ := pBytes_eq_some hhp
      have hwa : writeAtom f (AtomVal.container (slice f (pos + 4) 4)
          (slice f (pos + 8) 4) (collapseOD sq) pos (be32l (slice f pos 4))) =
          u32be ((slice f (pos + 4) 4 ++ slice f (pos + 8) 4 ++
            writeKids f sq).length + 4) ++ (slice f (pos + 4) 4 ++
            slice f (pos + 8) 4 ++ writeKids f sq) := by
        simp only [writeAtom, collapseOD_nodup sq hnd]
      rw [hwa]
      have hadj : pos + be32l (slice f pos 4) -
          (pos + 8 + (slice f (pos + 8) 4).length) =
          be32l (slice f pos 4) - (8 + (slice f (pos + 8) 4).length) := by
        omega
      rw [hadj] at hkidsB hklen
      apply container_assemble _ _ _ hb rfl rfl
      · exact slice_self f (pos + 8) 4
      · exact hkidsB
      · exact hklen
      · omega
      · exact hle
    · -- all other containers: no header
      rw [if_neg hmeta] at hhp
      simp only [Option.some.injEq, Prod.mk.injEq] at hhp
      obtain ⟨rfl, rfl⟩ := hhp
      have hwa : writeAtom f (AtomVal.container (slice f (pos + 4) 4)
          ([] : List Nat) (collapseOD sq) pos (be32l (slice f pos 4))) =
          u32be ((slice f (pos + 4) 4 ++ ([] : List Nat) ++
            writeKids f sq).length + 4) ++ (slice f (pos + 4) 4 ++
            ([] : List Nat) ++ writeKids f sq) := by
        simp only [writeAtom, collapseOD_nodup sq hnd]
      rw [hwa]
      have hadj : pos + be32l (slice f pos 4) - (pos + 8) =
          be32l (slice f pos 4) - 8 := by omega
      rw [hadj] at hkidsB hklen
      apply container_assemble _ _ _ hb rfl rfl
      · simp [slice]
      · simpa using hkidsB
      · simpa using hklen
      · simp only [List.length_nil]; omega
      · exact hle
  rw [if_neg h12] at hp
  by_cases h13 : slice f (pos + 4) 4 ∈ skipTypes
  · -- skipped (opaque) leaves
    rw [if_pos h13] at hp
    simp only [Option.some.injEq, Prod.mk.injEq] at hp
    obtain ⟨rfl, rfl, -⟩ := hp
    refine ⟨by simp [writeAtom], ?_⟩
    simp only [writeAtom]
    exact slice_length f pos _ hle
  rw [if_neg h13] at hp
  exact absurd hp (by simp)

theorem childrenRT_zero : ChildrenRT 0 := by
  intro f off off1 seq fin hb hp _
  simp [parseChildrenSeq] at hp

theorem childrenRT_succ (fl : Nat) (hat : AtomRT fl) (hch : ChildrenRT fl) :
    ChildrenRT (fl + 1) := by
  intro f off off1 seq fin hb hp hfin
  rw [parseChildrenSeq] at hp
  split at hp
  · -- the loop is over: offset1 reached
    simp only [Option.some.injEq, Prod.mk.injEq] at hp
    obtain ⟨rfl, rfl, -⟩ := hp
    exact ⟨by simp [writeKids, slice], Nat.le_refl off, by simp [writeKids]⟩
  · simp only [Option.bind_eq_some] at hp
    obtain ⟨⟨w, wsz, wflag⟩, hw, hp⟩ := hp
    split at hp
    case isTrue => exact absurd hp (by simp)
    rename_i hnz
    simp only [Option.bind_eq_some] at hp
    obtain ⟨⟨sq, sfin, sflag⟩, hsq, heq⟩ := hp
    simp only [Option.some.injEq, Prod.mk.injEq] at heq
    obtain ⟨rfl, rfl, hflag⟩ := heq
    rw [Bool.and_eq_true] at hflag
    obtain ⟨hf1, hf2⟩ := hflag
    subst hf1
    subst hf2
    obtain ⟨hrest, hle2, hrlen⟩ := hch f (off + wsz) off1 sq sfin hb hsq hfin
    obtain ⟨hchild, hclen⟩ := hat f off w wsz hb hw (by omega)
    refine ⟨?_, by omega, ?_⟩
    · simp only [writeKids]
      rw [hchild, hrest]
      have hsum : sfin - off = wsz + (sfin - (off + wsz)) := by omega
      rw [hsum, slice_split]
    · simp only [writeKids, List.length_append]
      rw [hclen, hrlen]
      omega

theorem childrenRT_all : ∀ fl, ChildrenRT fl := by
  intro fl
  induction fl with
  | zero => exact childrenRT_zero
  | succ n ih => exact childrenRT_succ n (atomRT_of_childrenRT n ih) ih

theorem atomRT_all (fl : Nat) : AtomRT fl :=
  atomRT_of_childrenRT fl (childrenRT_all fl)

/-- C3 (amended): for every atom the core parses from a byte file,
provided the atom's declared range lies inside the file and the parse is
clean (the `true` flag: no container inside the atom has two children
with the same type code, and every stsd sample description inside it
re-emits its declared length), serializing the parsed atom
(`write_atom`) reproduces the original atom bytes exactly.  Each proviso
is forced: `parse_write_roundtrip_counterexample` shows the parsed
`OrderedDict` keeps only the last child of a repeated type, so such a
container serializes to different bytes although the parser accepted
it; `stsd_short_description_breaks_roundtrip` shows a sample
description whose short or negative tail read is absorbed at end of
file parses successfully but re-serializes with a rewritten length
field; and an atom whose declared size overruns the end of the file
(possible for a trailing skipped atom) byte-copies fewer bytes than its
header declares. -/
theorem parse_write_roundtrip (fl : Nat) (f : List Nat) (pos : Nat)
    (v : AtomVal) (sz : Nat) (hb : bytesOk f)
    (hp : parseAtomAt fl f pos = some (v, sz, true))
    (hin : pos + sz ≤ f.length) :
    writeAtom f v = slice f pos sz :=
  (atomRT_all fl f pos v sz hb hp hin).1

theorem parse_write_roundtrip_witness :
    writeAtom mvhdB mvhdValW = slice mvhdB 0 108 :=
  parse_write_roundtrip 1 mvhdB 0 mvhdValW 108
    (by unfold bytesOk; decide) (by rfl) (by decide)

set_option maxRecDepth 8000 in
/-- C3 counterexample: `fileF` is a complete file that `MP4.__init__`
opens without any complaint, yet the `udta` atom at offset 60 — a
container with two `free` children — parses to 24 declared bytes while
`write_atom` emits only 16 bytes (the second `free` child replaced the
first in the `OrderedDict`), so parse → serialize does not reproduce the
original bytes. -/
theorem parse_write_roundtrip_counterexample :
    (mp4_open fileF).isSome = true ∧
    ((parseAtomAt 100 fileF 60).map fun t => t.2.1) = some 24 ∧
    ((parseAtomAt 100 fileF 60).map fun t => writeAtom fileF t.1) =
      some (u32be 16 ++ udtaT ++ (u32be 8 ++ freeT)) ∧
    u32be 16 ++ udtaT ++ (u32be 8 ++ freeT) ≠ slice fileF 60 24 := by
  refine ⟨by decide, by decide, by decide, by decide⟩

/-- The second family of round-trip failures, excluded by the `true`
flag in the round-trip theorem: `stsdBad`'s single sample description
declares length 17, so `parse_stsd` reads a negative-count tail to end
of file, which the atom's `done()` check absorbs — the parse succeeds
(with the exactness flag `false`), but `unparse_stsd` re-derives the
description length as `18 + 0 = 18 ≠ 17` and serialization does not
reproduce the original bytes. -/
theorem stsd_short_description_breaks_roundtrip :
    ((parseAtomAt 1 stsdBad 0).map fun t => (t.2.1, t.2.2)) =
      some (34, false) ∧
    ((parseAtomAt 1 stsdBad 0).map fun t =>
      decide (writeAtom stsdBad t.1 = slice stsdBad 0 34)) = some false := by
  exact ⟨by decide, by decide⟩

/-- C9 (amended): `dref` is not an opaque leaf — `parse_dref` exists, so
the typed dispatch parses it: the parse records the data-reference
entries and requires exactly one of them (`assert(num == 1)`); because
there is no `unparse_dref`, serialization still byte-copies the recorded
range, so a successfully parsed `dref` round-trips. -/
theorem parse_dref_single_reference (f : List Nat) (pos size : Nat)
    (version flags : List Nat) (refs : List DataReference) (p s : Nat)
    (h : parse_dref_at f pos size = some (.dref version flags refs p s)) :
    refs.length = 1 ∧ p = pos ∧ s = size ∧
      writeAtom f (.dref version flags refs p s) = slice f pos size := by
  simp only [parse_dref_at, Option.bind_eq_some] at h
  obtain ⟨tp, hcore, hif⟩ := h
  split at hif
  case isFalse => exact absurd hif (by simp)
  simp only [Option.some.injEq, AtomVal.dref.injEq] at hif
  obtain ⟨-, -, rfl, rfl, rfl⟩ := hif
  have hfacts := dref_core_facts hcore
  exact ⟨hfacts.2, rfl, rfl, by simp [writeAtom]⟩

theorem parse_dref_single_reference_witness :
    writeAtom drefB drefValW = slice drefB 0 28 :=
  (parse_dref_single_reference drefB 0 28 [0] [0, 0, 0]
    [⟨[0, 0, 0, 0], [0], [0, 0, 0], []⟩] 0 28 (by rfl)).2.2.2

/-- C9 counterexample: a syntactically well-formed `dref` atom whose
payload declares two data references.  The claim says parsing `dref`
skips the payload and succeeds regardless of the declared count; in the
code `parse_dref` is dispatched (it appears in `dir(self)`, which is
checked before the skip list) and its `assert(num == 1)` fails, so the
parse does not succeed — and the parse result carries parsed fields
(`data_references`), not just position and size. -/
theorem parse_dref_two_references_fails :
    drefAtom2.length = 40 ∧ be32l (slice drefAtom2 0 4) = 40 ∧
    slice drefAtom2 4 4 = drefT ∧ parseAtomAt 1 drefAtom2 0 = none := by
  refine ⟨by decide, by decide, by decide, by rfl⟩

theorem mkChunk_offset_length (v : VideoInfo) (i : Nat) (c : DChunk)
    (h : mkChunk v i = some c) :
    v.stco.getD i 0 = c.offset ∧ chunkLengthD v i = c.length := by
  have hlen : chunkLengthD v i = c.length := by simp [chunkLengthD, h]
  refine ⟨?_, hlen⟩
  simp only [mkChunk, Option.bind_eq_some, Option.map_eq_some'] at h
  obtain ⟨off, hoff, fl, hfl, ci, hci, sd, hsd, hc⟩ := h
  subst hc
  rw [List.getD_eq_getD_get?, hoff]
  rfl

theorem buildChunksAux_isSome (v : VideoInfo) :
    ∀ (k i : Nat), (∀ j, j < k → (mkChunk v (i + j)).isSome = true) →
      ∃ cl, buildChunksAux v i k = some cl := by
  intro k
  induction k with
  | zero => exact fun i _ => ⟨[], rfl⟩
  | succ n ih =>
    intro i hall
    have h0 : (mkChunk v i).isSome = true := by
      simpa using hall 0 (by omega)
    obtain ⟨c, hc⟩ := Option.isSome_iff_exists.mp h0
    obtain ⟨cs, hcs⟩ := ih (i + 1) (fun j hj => by
      have hj1 := hall (j + 1) (by omega)
      have e : i + (j + 1) = i + 1 + j := by omega
      rw [e] at hj1
      exact hj1)
    exact ⟨c :: cs, by simp [buildChunksAux, hc, hcs]⟩

theorem contig_facts (v : VideoInfo) :
    ∀ (k i pos fin : Nat) (cl : List DChunk),
      buildChunksAux v i k = some cl → contigLoop pos cl = some fin →
      (0 < k → v.stco.getD i 0 = pos) ∧
      (∀ j, j + 1 < k → v.stco.getD (i + j + 1) 0 =
        v.stco.getD (i + j) 0 + chunkLengthD v (i + j)) ∧
      (0 < k → v.stco.getD (i + (k - 1)) 0 +
        chunkLengthD v (i + (k - 1)) = fin) ∧
      (k = 0 → fin = pos) := by
  intro k
  induction k with
  | zero =>
    intro i pos fin cl hb hc
    simp only [buildChunksAux, Option.some.injEq] at hb
    subst hb
    simp only [contigLoop, Option.some.injEq] at hc
    exact ⟨fun h => absurd h (by omega), fun j hj => absurd hj (by omega),
      fun h => absurd h (by omega), fun _ => hc.symm⟩
  | succ n ih =>
    intro i pos fin cl hb hc
    simp only [buildChunksAux, Option.bind_eq_some, Option.map_eq_some'] at hb
    obtain ⟨c, hck, cs, hcs, rfl⟩ := hb
    simp only [contigLoop] at hc
    split at hc
    case isFalse => exact absurd hc (by simp)
    rename_i hoffc
    obtain ⟨hoc, hlc⟩ := mkChunk_offset_length v i c hck
    obtain ⟨ih1, ih2, ih3, ih4⟩ := ih (i + 1) (pos + c.length) fin cs hcs hc
    refine ⟨fun _ => by rw [hoc]; exact hoffc, ?_, ?_, fun h => by omega⟩
    · intro j hj
      match j with
      | 0 =>
        have h10 : v.stco.getD (i + 1) 0 = pos + c.length := ih1 (by omega)
        simp only [Nat.add_zero]
        rw [hoc, hlc, hoffc]
        exact h10
      | m + 1 =>
        have hm := ih2 m (by omega)
        have e1 : i + 1 + m = i + (m + 1) := by omega
        rw [e1] at hm
        exact hm
    · intro _
      match n, ih3, ih4 with
      | 0, _, ih4 =>
        have hfin : fin = pos + c.length := ih4 rfl
        simp only [Nat.add_sub_cancel, Nat.add_zero]
        rw [hoc, hlc, hfin, hoffc]
      | m + 1, ih3, _ =>
        have h3 := ih3 (by omega)
        have e1 : i + 1 + (m + 1 - 1) = i + (m + 1 + 1 - 1) := by omega
        rw [e1] at h3
        exact h3

theorem tiling_of_facts (v : VideoInfo)
    (h1 : 0 < v.stco.length → v.stco.getD 0 0 = v.mdat_position + 8)
    (h2 : ∀ j, j + 1 < v.stco.length → v.stco.getD (j + 1) 0 =
      v.stco.getD j 0 + chunkLengthD v j)
    (h3 : 0 < v.stco.length → v.stco.getD (v.stco.length - 1) 0 +
      chunkLengthD v (v.stco.length - 1) = v.mdat_position + v.mdat_atomsize) :
    tilesMdatB v = true := by
  unfold tilesMdatB
  simp only [Bool.and_eq_true, Bool.or_eq_true, decide_eq_true_eq,
    List.all_eq_true, List.mem_range]
  refine ⟨⟨?_, fun i hi => h2 i (by omega)⟩, ?_⟩
  · rcases Nat.eq_zero_or_pos v.stco.length with h | h
    · exact Or.inl h
    · exact Or.inr (h1 h)
  · rcases Nat.eq_zero_or_pos v.stco.length with h | h
    · exact Or.inl h
    · exact Or.inr (h3 h)

/-- C6: for a parsed file on which every chunk can be derived, `chunks()`
returns the full ordered chunk list only when the chunks tile the mdat
exactly — first chunk at `mdat._position + 8`, each following chunk
abutting the previous one, the final chunk ending exactly at
`mdat._position + mdat.atomsize` — and fails with
ChunkContiguityViolation whenever any of these conditions is violated. -/
theorem chunks_tiling (v : VideoInfo) (hder : derivOkB v = true) :
    (isOkE (chunks v) = true → tilesMdatB v = true) ∧
    (tilesMdatB v = false → chunks v = .error .contiguity) := by
  have hall : ∀ j, j < v.stco.length → (mkChunk v (0 + j)).isSome = true := by
    intro j hj
    have := List.all_eq_true.mp hder (0 + j) (by simp [List.mem_range]; omega)
    simpa using this
  obtain ⟨cl, hcl⟩ := buildChunksAux_isSome v v.stco.length 0 hall
  cases hcg : contigLoop (v.mdat_position + 8) cl with
  | none =>
    have hch : chunks v = .error .contiguity := by
      simp [chunks, buildChunks, hcl, hcg]
    refine ⟨fun hok => ?_, fun _ => hch⟩
    rw [hch] at hok
    simp [isOkE] at hok
  | some fin =>
    by_cases hfe : fin = v.mdat_position + v.mdat_atomsize
    · obtain ⟨f1, f2, f3, -⟩ :=
        contig_facts v v.stco.length 0 (v.mdat_position + 8) fin cl hcl hcg
      have htl : tilesMdatB v = true := by
        apply tiling_of_facts v
        · intro h; simpa using f1 h
        · intro j hj
          have := f2 j hj
          simpa using this
        · intro h
          have := f3 h
          rw [hfe] at this
          simpa using this
      exact ⟨fun _ => htl, fun hfalse => absurd htl (by simp [hfalse])⟩
    · have hch : chunks v = .error .contiguity := by
        simp [chunks, buildChunks, hcl, hcg, hfe]
      refine ⟨fun hok => ?_, fun _ => hch⟩
      rw [hch] at hok
      simp [isOkE] at hok

theorem chunks_tiling_witness : tilesMdatB vW = true :=
  (chunks_tiling vW (by decide)).1 (by rfl)

/-- C10: the chunk-derivation lookup `chunk_info` has the unstated
precondition that the first stsc run's `first_chunk` equals 1 (an
`assert`); when it does not, deriving any chunk fails instead of
applying the largest-`first_chunk`-not-exceeding-`chunkno+1` rule. -/
theorem chunk_info_first_chunk_precondition (e : StscEntry)
    (rest : List StscEntry) (h : e.first_chunk ≠ 1) (chunkno : Nat) :
    chunk_info (e :: rest) chunkno = none := by
  simp [chunk_info, h]

theorem chunk_info_first_chunk_precondition_witness :
    chunk_info [⟨2, 5, 1⟩] 0 = none :=
  chunk_info_first_chunk_precondition ⟨2, 5, 1⟩ [] (by decide) 0

theorem stcoLoop_length (cs : List ChunkData) :
    ∀ pos : Nat, (stcoLoop pos cs).length = cs.length := by
  induction cs with
  | nil => intro pos; rfl
  | cons c cs ih => intro pos; simp [stcoLoop, ih]

theorem stcoLoop_get (cs : List ChunkData) :
    ∀ (pos i : Nat), i < cs.length →
      (stcoLoop pos cs).get? i =
        some (pos + ((cs.take i).map ChunkData.length).sum) := by
  induction cs with
  | nil => intro pos i hi; exact absurd hi (by simp)
  | cons c cs ih =>
    intro pos i hi
    cases i with
    | zero => simp [stcoLoop]
    | succ i =>
      have hrec := ih (pos + c.length) i (by simpa using hi)
      simp only [stcoLoop, List.get?_cons_succ, List.take_succ_cons,
        List.map_cons, List.sum_cons, hrec]
      congr 1
      omega

theorem stszAll_length (cs : List ChunkData) :
    (stszAll cs).length = (cs.map fun c => c.sample_sizes.length).sum := by
  induction cs with
  | nil => rfl
  | cons c cs ih => simp [stszAll, ih]

theorem foldl_add_sizes (cs : List ChunkData) :
    ∀ a : Nat, cs.foldl (fun x c => x + c.sample_sizes.length) a =
      a + (cs.map fun c => c.sample_sizes.length).sum := by
  induction cs with
  | nil => intro a; simp
  | cons c cs ih =>
    intro a
    rw [List.foldl_cons, ih, List.map_cons, List.sum_cons]
    omega

theorem nsamplesOf_eq (cs : List ChunkData) :
    nsamplesOf cs = (cs.map fun c => c.sample_sizes.length).sum := by
  simpa using foldl_add_sizes cs 0

theorem stssLoop_eq (cs : List ChunkData) :
    ∀ base : Nat,
      stssLoop base cs =
        (List.range cs.length).flatMap fun i =>
          (cs.getD i dummyChunk).keyframes.map fun o =>
            (base + ((cs.take i).map fun c => c.sample_sizes.length).sum) + o := by
  induction cs with
  | nil => intro base; rfl
  | cons c cs ih =>
    intro base
    rw [stssLoop, List.length_cons, List.range_succ_eq_map,
      List.flatMap_cons, List.flatMap_map, ih (base + c.sample_sizes.length)]
    simp [Nat.add_assoc]

theorem listIndex_append (d : SampleDescription) (l t : List SampleDescription)
    (h : d ∈ l) : listIndex d (l ++ t) = listIndex d l := by
  induction l with
  | nil => exact absurd h (by simp)
  | cons x l ih =>
    by_cases hx : x = d
    · simp [listIndex, hx]
    · rcases List.mem_cons.mp h with h1 | h2
      · exact absurd h1.symm hx
      · simp [listIndex, hx, ih h2]

theorem dedupIns_nodup (l : List SampleDescription) :
    ∀ acc : List SampleDescription, acc.Nodup →
      (l.foldl (fun acc d => if d ∈ acc then acc else acc ++ [d]) acc).Nodup := by
  induction l with
  | nil => intro acc h; exact h
  | cons d l ih =>
    intro acc h
    rw [List.foldl_cons]
    by_cases hd : d ∈ acc
    · rw [if_pos hd]; exact ih acc h
    · rw [if_neg hd]
      refine ih _ ?_
      rw [List.nodup_append]
      refine ⟨h, List.nodup_singleton d, ?_⟩
      intro x hx hxs
      rw [List.mem_singleton] at hxs
      subst hxs
      exact hd hx

theorem dedupFS_nodup (l : List SampleDescription) : (dedupFS l).Nodup :=
  dedupIns_nodup l [] List.nodup_nil

theorem stscStsdLoop_descs (cs : List ChunkData) :
    ∀ (i : Nat) (runs : List StscEntry) (descs : List SampleDescription),
      (stscStsdLoop i runs descs cs).2 =
        (cs.map fun c => c.sample_description).foldl
          (fun acc d => if d ∈ acc then acc else acc ++ [d]) descs := by
  induction cs with
  | nil => intro i runs descs; rfl
  | cons c cs ih =>
    intro i runs descs
    simp only [stscStsdLoop, List.map_cons, List.foldl_cons]
    exact ih _ _ _

theorem stscStsdLoop_descs_ext (cs : List ChunkData) :
    ∀ (i : Nat) (runs : List StscEntry) (descs : List SampleDescription),
      ∃ t, (stscStsdLoop i runs descs cs).2 = descs ++ t := by
  induction cs with
  | nil => intro i runs descs; exact ⟨[], by simp [stscStsdLoop]⟩
  | cons c cs ih =>
    intro i runs descs
    simp only [stscStsdLoop]
    by_cases hd : c.sample_description ∈ descs
    · simp only [if_pos hd]
      exact ih _ _ _
    · simp only [if_neg hd]
      obtain ⟨t, ht⟩ := ih (i + 1)
        (runs ++ [⟨i + 1, c.sample_sizes.length,
          listIndex c.sample_description (descs ++ [c.sample_description]) + 1⟩])
        (descs ++ [c.sample_description])
      exact ⟨[c.sample_description] ++ t, by rw [ht, List.append_assoc]⟩

theorem stscStsdLoop_runs_ext (cs : List ChunkData) :
    ∀ (i : Nat) (runs : List StscEntry) (descs : List SampleDescription),
      ∃ t, (stscStsdLoop i runs descs cs).1 = runs ++ t := by
  induction cs with
  | nil => intro i runs descs; exact ⟨[], by simp [stscStsdLoop]⟩
  | cons c cs ih =>
    intro i runs descs
    simp only [stscStsdLoop]
    obtain ⟨t, ht⟩ := ih (i + 1)
      (runs ++ [⟨i + 1, c.sample_sizes.length,
        listIndex c.sample_description
          (if c.sample_description ∈ descs then descs
           else descs ++ [c.sample_description]) + 1⟩])
      (if c.sample_description ∈ descs then descs
       else descs ++ [c.sample_description])
    refine ⟨[⟨i + 1, c.sample_sizes.length,
      listIndex c.sample_description
        (if c.sample_description ∈ descs then descs
         else descs ++ [c.sample_description]) + 1⟩] ++ t, ?_⟩
    rw [ht, List.append_assoc]

theorem stscStsdLoop_runs_length (cs : List ChunkData) :
    ∀ (i : Nat) (runs : List StscEntry) (descs : List SampleDescription),
      (stscStsdLoop i runs descs cs).1.length = runs.length + cs.length := by
  induction cs with
  | nil => intro i runs descs; rfl
  | cons c cs ih =>
    intro i runs descs
    simp only [stscStsdLoop]
    rw [ih]
    simp
    omega

theorem stscStsdLoop_get (cs : List ChunkData) :
    ∀ (i : Nat) (runs : List StscEntry) (descs : List SampleDescription)
      (j : Nat) (c : ChunkData), cs.get? j = some c →
      (stscStsdLoop i runs descs cs).1.get? (runs.length + j) =
        some ⟨i + j + 1, c.sample_sizes.length,
          listIndex c.sample_description (stscStsdLoop i runs descs cs).2 + 1⟩ := by
  induction cs with
  | nil => intro i runs descs j c hc; exact absurd hc (by simp)
  | cons c0 cs ih =>
    intro i runs descs j c hc
    simp only [stscStsdLoop]
    have hmemD : c0.sample_description ∈
        (if c0.sample_description ∈ descs then descs
         else descs ++ [c0.sample_description]) := by
      by_cases hd : c0.sample_description ∈ descs
      · simpa [if_pos hd] using hd
      · simp [if_neg hd]
    generalize hD : (if c0.sample_description ∈ descs then descs
      else descs ++ [c0.sample_description]) = D at hmemD ⊢
    cases j with
    | zero =>
      have hc0 : c0 = c := by simpa using hc
      subst hc0
      obtain ⟨t, ht⟩ := stscStsdLoop_runs_ext cs (i + 1)
        (runs ++ [⟨i + 1, c0.sample_sizes.length,
          listIndex c0.sample_description D + 1⟩]) D
      obtain ⟨t2, ht2⟩ := stscStsdLoop_descs_ext cs (i + 1)
        (runs ++ [⟨i + 1, c0.sample_sizes.length,
          listIndex c0.sample_description D + 1⟩]) D
      rw [ht, ht2, List.append_assoc]
      simp only [Nat.add_zero]
      rw [List.get?_append_right (Nat.le_refl runs.length),
        listIndex_append _ _ _ hmemD]
      simp
    | succ j =>
      have hrec := ih (i + 1)
        (runs ++ [⟨i + 1, c0.sample_sizes.length,
          listIndex c0.sample_description D + 1⟩]) D j c (by simpa using hc)
      rw [List.length_append, List.length_singleton] at hrec
      have h1 : runs.length + 1 + j = runs.length + (j + 1) := by omega
      have h2 : i + 1 + j + 1 = i + (j + 1) + 1 := by omega
      rw [h1, h2] at hrec
      exact hrec

theorem stscStsdLoop_spc_sum (cs : List ChunkData) :
    ∀ (i : Nat) (runs : List StscEntry) (descs : List SampleDescription),
      ((stscStsdLoop i runs descs cs).1.map StscEntry.samples_per_chunk).sum =
        (runs.map StscEntry.samples_per_chunk).sum +
          (cs.map fun c => c.sample_sizes.length).sum := by
  induction cs with
  | nil => intro i runs descs; simp [stscStsdLoop]
  | cons c cs ih =>
    intro i runs descs
    simp only [stscStsdLoop]
    rw [ih]
    simp
    omega

theorem writePhase_ok (s : MP4State) (chunks : List ChunkData) (m₀ : MoovA)
    (mo : List Nat) (fl : Nat) (m'' : MoovA) (fs' : FS)
    (h : writePhase s chunks m₀ mo fl = (.ok m'', fs')) : m'' = m₀ := by
  simp only [writePhase] at h
  split at h
  · exact absurd h (by simp)
  · split at h
    · split at h
      · injection h with h1 h2
        injection h1 with h1
        exact h1.symm
      · exact absurd h (by simp)
    · exact absurd h (by simp)

theorem update_ok_rebuild (s : MP4State) (chunks : List ChunkData) (m' : MoovA)
    (h : updatedMoov s chunks = some m') :
    rebuild_moov s chunks = .ok m' := by
  unfold updatedMoov at h
  split at h
  case h_2 => exact absurd h (by simp)
  case h_1 m heq =>
    injection h with h
    subst h
    simp only [update_in_place_using_chunks] at heq
    split at heq
    · exact absurd heq (by simp)
    split at heq
    · exact absurd heq (by simp)
    split at heq
    · exact absurd heq (by simp)
    split at heq
    · exact absurd heq (by simp)
    split at heq
    case h_1 => exact absurd heq (by simp)
    case h_2 mr hr =>
      split at heq
      · exact absurd heq (by simp)
      split at heq
      case h_1 => exact absurd heq (by simp)
      case h_2 mw fsw hw =>
        injection heq with heq
        rw [hr]
        rw [writePhase_ok s chunks mr _ _ mw fsw hw] at heq
        rw [heq]

theorem rebuild_moov_fields (s : MP4State) (chunks : List ChunkData)
    (m' : MoovA) (h : rebuild_moov s chunks = .ok m') :
    m'.stco.chunk_offsets = stcoLoop (s.mdat_position + 8) chunks ∧
    m'.stsz.sample_sizes = stszAll chunks ∧
    m'.stsc.sample_to_chunk_map = (stscStsdLoop 0 [] [] chunks).1 ∧
    m'.stsd.sample_descriptions = (stscStsdLoop 0 [] [] chunks).2 ∧
    m'.stss.key_frame_samples = stssLoop 1 chunks ∧
    ∃ d : Nat, m'.stts.time_to_sample_map = [⟨nsamplesOf chunks, d⟩] := by
  simp only [rebuild_moov] at h
  split at h
  · exact absurd h (by simp)
  next e0 rest heq =>
    split at h
    · exact absurd h (by simp)
    split at h
    · exact absurd h (by simp)
    split at h
    case h_2 => exact absurd h (by simp)
    case h_1 e =>
      split at h
      · exact absurd h (by simp)
      split at h
      · exact absurd h (by simp)
      injection h with h
      subst h
      exact ⟨rfl, rfl, rfl, rfl, rfl, e0.sample_duration, rfl⟩

/-- C1: if `update_in_place_using_chunks` fails with
`NeedsRewriteException` — for any of its three causes (missing free
atom, disordered sections, rebuilt moov too large) — the destination
file state it returns is byte-identical to the pre-call state: every
NeedsRewrite raise precedes the first write to the destination. -/
theorem needsRewrite_leaves_file_unchanged (s : MP4State)
    (chunks : List ChunkData) (why : NRWhy) (space : Nat)
    (res : Except UpdErr MoovA) (fs' : FS)
    (h : update_in_place_using_chunks s chunks = (res, fs'))
    (hres : res = .error (.needsRewrite why space)) : fs' = s.fs := by
  subst hres
  simp only [update_in_place_using_chunks] at h
  split at h
  · injection h with h1 h2; exact h2.symm
  split at h
  · injection h with h1 h2; exact h2.symm
  split at h
  · injection h with h1 h2; exact h2.symm
  split at h
  · injection h with h1 h2; exact h2.symm
  split at h
  · injection h with h1 h2; exact h2.symm
  split at h
  · injection h with h1 h2; exact h2.symm
  split at h
  · injection h with h1 h2
    injection h1 with h1
    simp at h1
  · injection h with h1 h2
    simp at h1

set_option maxRecDepth 4000 in
theorem needsRewrite_leaves_file_unchanged_witness :
    (update_in_place_using_chunks sNR []).2 = sNR.fs :=
  needsRewrite_leaves_file_unchanged sNR [] .missingFree 0
    (update_in_place_using_chunks sNR []).1
    (update_in_place_using_chunks sNR []).2 rfl (by rfl)

/-- C8 (corrected): the dimension check compares every later chunk
against the FIRST CHUNK's video dimensions, not against the
destination's.  Whenever some chunk's dimensions differ from the first
chunk's, the update fails with the dimension error before any
destination bytes are written. -/
theorem dimension_check_uses_first_chunk (s : MP4State) (c0 : ChunkData)
    (rest : List ChunkData) (hw : s.writable = true)
    (hd : ∃ c ∈ rest, c.dims ≠ c0.dims) :
    update_in_place_using_chunks s (c0 :: rest) =
      (.error .dimensionMismatch, s.fs) := by
  have hdim : dimMismatch (c0 :: rest) = true := by
    simp only [dimMismatch, List.any_eq_true, decide_eq_true_eq]
    obtain ⟨c, hc, hne⟩ := hd
    exact ⟨c, hc, fun he => hne he.symm⟩
  unfold update_in_place_using_chunks
  rw [if_neg (by simp [hw]), if_pos hdim]

theorem dimension_check_uses_first_chunk_witness :
    update_in_place_using_chunks sNR [cA, cB] =
      (.error .dimensionMismatch, sNR.fs) :=
  dimension_check_uses_first_chunk sNR cA [cB] rfl
    ⟨cB, by simp, by decide⟩

set_option maxRecDepth 10000 in
/-- Counterexample to C8 as stated: on a destination whose track is
1280×720, a single 640×480 chunk differs from the destination's
dimensions, yet the update succeeds (no DimensionMismatch is raised and
destination bytes are written): the check never consults the
destination's dimensions. -/
theorem dimension_check_counterexample :
    destDimensions sOK2 ≠ cW.dims ∧
    (updatedMoov sOK2 [cW]).isSome = true :=
  ⟨by decide, by rfl⟩

/-- C2: after every successful in-place update on `chunks`, the rebuilt
stco table has one offset per chunk and
`chunk_offsets[i] = mdat._position + 8 + Σ_{j<i} chunks[j].byte_length`
(so in particular the first offset is `mdat._position + 8`). -/
theorem stco_offsets_after_update (s : MP4State) (chunks : List ChunkData)
    (m' : MoovA) (h : updatedMoov s chunks = some m') :
    m'.stco.chunk_offsets.length = chunks.length ∧
    ∀ i, i < chunks.length →
      m'.stco.chunk_offsets.get? i =
        some (s.mdat_position + 8 +
          ((chunks.take i).map ChunkData.length).sum) := by
  obtain ⟨hco, -, -, -, -, -⟩ :=
    rebuild_moov_fields s chunks m' (update_ok_rebuild s chunks m' h)
  refine ⟨by rw [hco, stcoLoop_length], fun i hi => ?_⟩
  rw [hco]
  exact stcoLoop_get chunks (s.mdat_position + 8) i hi

set_option maxRecDepth 10000 in
theorem stco_offsets_after_update_witness :
    ∃ m : MoovA, updatedMoov sOK [cW] = some m ∧
      m.stco.chunk_offsets.get? 0 = some 502 := by
  cases hm : updatedMoov sOK [cW] with
  | none =>
    have hs : (updatedMoov sOK [cW]).isSome = true := by rfl
    rw [hm] at hs
    exact absurd hs (by decide)
  | some m =>
    refine ⟨m, rfl, ?_⟩
    exact ((stco_offsets_after_update sOK [cW] m hm).2 0 (by decide)).trans
      (by rfl)

/-- C4: after every successful in-place update, the rebuilt stsd is the
byte-wise first-seen deduplication of the chunks' sample descriptions
(hence duplicate-free), and the rebuilt stsc has exactly one run per
chunk with `first_chunk = i + 1`,
`samples_per_chunk = len(chunks[i].sample_sizes)`, and
`sample_description_id` the 1-based index of the chunk's description in
the rebuilt stsd list; hence chunks with byte-equal descriptions
reference the same id. -/
theorem stsc_stsd_after_update (s : MP4State) (chunks : List ChunkData)
    (m' : MoovA) (h : updatedMoov s chunks = some m') :
    m'.stsd.sample_descriptions =
      dedupFS (chunks.map fun c => c.sample_description) ∧
    m'.stsd.sample_descriptions.Nodup ∧
    m'.stsc.sample_to_chunk_map.length = chunks.length ∧
    (∀ i c, chunks.get? i = some c →
      m'.stsc.sample_to_chunk_map.get? i =
        some ⟨i + 1, c.sample_sizes.length,
          listIndex c.sample_description m'.stsd.sample_descriptions + 1⟩) ∧
    (∀ i j ci cj, chunks.get? i = some ci → chunks.get? j = some cj →
      ci.sample_description = cj.sample_description →
      (m'.stsc.sample_to_chunk_map.get? i).map StscEntry.sample_description_id =
        (m'.stsc.sample_to_chunk_map.get? j).map
          StscEntry.sample_description_id) := by
  obtain ⟨-, -, hsc, hsd, -, -⟩ :=
    rebuild_moov_fields s chunks m' (update_ok_rebuild s chunks m' h)
  have hdedup : m'.stsd.sample_descriptions =
      dedupFS (chunks.map fun c => c.sample_description) := by
    rw [hsd, stscStsdLoop_descs]
    rw [dedupFS, List.foldl_map]
  have hentry : ∀ i c, chunks.get? i = some c →
      m'.stsc.sample_to_chunk_map.get? i =
        some ⟨i + 1, c.sample_sizes.length,
          listIndex c.sample_description m'.stsd.sample_descriptions + 1⟩ := by
    intro i c hc
    have hg := stscStsdLoop_get chunks 0 [] [] i c hc
    rw [List.length_nil, Nat.zero_add] at hg
    rw [hsc, hg, ← hsd]
  refine ⟨hdedup, ?_, ?_, hentry, ?_⟩
  · rw [hdedup]; exact dedupFS_nodup _
  · rw [hsc, stscStsdLoop_runs_length]; simp
  · intro i j ci cj hci hcj heq
    rw [hentry i ci hci, hentry j cj hcj]
    simp [heq]

set_option maxRecDepth 10000 in
theorem stsc_stsd_after_update_witness :
    ∃ m : MoovA, updatedMoov sOK [cW] = some m ∧
      m.stsd.sample_descriptions = [dW] ∧
      m.stsc.sample_to_chunk_map.get? 0 = some ⟨1, 1, 1⟩ := by
  cases hm : updatedMoov sOK [cW] with
  | none =>
    have hs : (updatedMoov sOK [cW]).isSome = true := by rfl
    rw [hm] at hs
    exact absurd hs (by decide)
  | some m =>
    obtain ⟨h1, -, -, h4, -⟩ := stsc_stsd_after_update sOK [cW] m hm
    have he := h4 0 cW rfl
    rw [h1] at he
    exact ⟨m, rfl, h1.trans (by rfl), he.trans (by rfl)⟩

/-- C5: after every successful in-place update, the rebuilt stss is
exactly the concatenation, in chunk order, of
`base(i) + o` over each chunk's local keyframe offsets `o`, where
`base(i)` is the 1-based sample index of chunk `i`'s first sample
(`base(0) = 1`, `base(i+1) = base(i) + len(chunks[i].sample_sizes)`). -/
theorem stss_after_update (s : MP4State) (chunks : List ChunkData)
    (m' : MoovA) (h : updatedMoov s chunks = some m') :
    m'.stss.key_frame_samples =
      (List.range chunks.length).flatMap fun i =>
        (chunks.getD i dummyChunk).keyframes.map fun o =>
          baseIdx chunks i + o := by
  obtain ⟨-, -, -, -, hss, -⟩ :=
    rebuild_moov_fields s chunks m' (update_ok_rebuild s chunks m' h)
  rw [hss, stssLoop_eq]
  rfl

set_option maxRecDepth 10000 in
theorem stss_after_update_witness :
    ∃ m : MoovA, updatedMoov sOK [cW] = some m ∧
      m.stss.key_frame_samples = [1] := by
  cases hm : updatedMoov sOK [cW] with
  | none =>
    have hs : (updatedMoov sOK [cW]).isSome = true := by rfl
    rw [hm] at hs
    exact absurd hs (by decide)
  | some m =>
    exact ⟨m, rfl, (stss_after_update sOK [cW] m hm).trans (by rfl)⟩

/-- C7: after every successful in-place update, the length of the
rebuilt stsz, the total sample count over the chunks, the single stts
entry's sample_count, and the sum of samples_per_chunk over the rebuilt
stsc runs all agree. -/
theorem frame_counts_after_update (s : MP4State) (chunks : List ChunkData)
    (m' : MoovA) (h : updatedMoov s chunks = some m') :
    m'.stsz.sample_sizes.length =
      (chunks.map fun c => c.sample_sizes.length).sum ∧
    m'.stts.time_to_sample_map.map SttsEntry.sample_count =
      [(chunks.map fun c => c.sample_sizes.length).sum] ∧
    (m'.stsc.sample_to_chunk_map.map StscEntry.samples_per_chunk).sum =
      (chunks.map fun c => c.sample_sizes.length).sum := by
  obtain ⟨-, hsz, hsc, -, -, ⟨d, hst⟩⟩ :=
    rebuild_moov_fields s chunks m' (update_ok_rebuild s chunks m' h)
  refine ⟨?_, ?_, ?_⟩
  · rw [hsz, stszAll_length]
  · rw [hst]; simp [nsamplesOf_eq]
  · rw [hsc, stscStsdLoop_spc_sum]; simp

set_option maxRecDepth 10000 in
theorem frame_counts_after_update_witness :
    ∃ m : MoovA, updatedMoov sOK [cW] = some m ∧
      m.stsz.sample_sizes.length = 1 ∧
      m.stts.time_to_sample_map.map SttsEntry.sample_count = [1] := by
  cases hm : updatedMoov sOK [cW] with
  | none =>
    have hs : (updatedMoov sOK [cW]).isSome = true := by rfl
    rw [hm] at hs
    exact absurd hs (by decide)
  | some m =>
    obtain ⟨h1, h2, -⟩ := frame_counts_after_update sOK [cW] m hm
    exact ⟨m, rfl, h1.trans (by rfl), h2.trans (by rfl)⟩

end MP4Concat
